import Mathlib

/-!
# A verification development for the mark-and-sweep garbage collector in `src/gc.c`

This file gives a shallow embedding, in Lean 4, of the allocation registry
(`AllocationMap`), the collector (`GarbageCollector`), and the mark and sweep
phases of the C source `src/gc.c`, together with theorems settling a list of
specification claims about them.

Modelling conventions, used throughout:

* Machine addresses (`void*`, `uintptr_t`) are modelled as `Nat`; the null
  pointer is `0`.  Byte sizes (`size_t`) are `Nat`.
* A destructor/finalizer function pointer (`void (*)(void*)`) is modelled as
  `Option Nat`: `none` is the C `NULL`, `some d` is an opaque nonnull function
  address `d`.  The collector only ever compares a finalizer against `NULL`
  and invokes it, so an opaque identifier is a faithful embedding.
* The `char tag` bitmask of an `Allocation` only ever uses the two bits
  `GC_TAG_ROOT = 0x1` and `GC_TAG_MARK = 0x2`; it is embedded as a pair of
  booleans (`Tag.root`, `Tag.mark`).
* The `double` load/sweep factors are embedded as exact rationals (`ℚ`); the
  comparisons the code performs (`size / capacity < factor` etc.) involve
  rationals with tiny numerators and denominators, for which the exact
  comparison and the C `double` comparison coincide.
* Client memory is modelled as a read function `mem : Nat → Nat`;
  `mem a` is the word value the C expression `*(void**)a` reads at byte
  address `a`.  The mark phase of this collector only reads client memory,
  so a pure read function is sufficient.
* The C code frees the bookkeeping node of an allocation and afterwards still
  reads fields of the freed node (`gc_sweep` reads `chunk->next` after
  `gc_allocation_map_remove` freed `chunk`; `gc_allocation_map_remove` reads
  `cur->next` after `gc_allocation_delete(cur)`; `gc_realloc` reads
  `alloc->dtor` after the record was removed).  These reads are undefined
  behaviour in C.  The embedding resolves them with the benign reading that a
  freed node still holds the field values it held when it was freed.  The
  use-after-free itself is modelled separately and explicitly for the claim
  about sweep's traversal (see `gc_sweep_chain_accesses`).
* The sweep is modelled at two levels.  `gc_sweep_exec` is the faithful
  cursor-level model of `gc_sweep` (gc.c:473-498): the outer loop re-reads
  `gc->allocs->capacity` and `gc->allocs->allocs[i]` each iteration and the
  cursor follows the live `next` pointers of the *current* table, so the
  mid-sweep downsize that `gc_allocation_map_remove`'s unconditional
  load-factor check can fire (remove has no `allow_resize` guard in this
  source) redirects the remaining traversal — the claims C2 and C4 exhibit
  the resulting bug.  `gc_sweep`/`sweepList` below is the straight-line
  traversal of the records present at sweep start; it coincides with the
  real sweep exactly on runs in which every mid-sweep resize request is a
  no-op (request ≤ `min_capacity`), which holds on each concrete `gc_run`
  trace it is used for (claim C3: capacity 3 = `min_capacity`).
-/

/-- The two tag bits of an allocation record, `GC_TAG_ROOT = 0x1` and
`GC_TAG_MARK = 0x2` in the source.  `GC_TAG_NONE` is both bits clear. -/
structure Tag where
  root : Bool
  mark : Bool
deriving Repr, DecidableEq

/-- `GC_TAG_NONE`: no bit set. -/
def GC_TAG_NONE : Tag := ⟨false, false⟩

/-- A bookkeeping record for one allocation: `struct Allocation` in the
source, minus the intrusive `next` pointer, which is represented by the
position of the record inside its bucket list. -/
structure Allocation where
  ptr : Nat
  size : Nat
  tag : Tag
  dtor : Option Nat
deriving Repr, DecidableEq

/-- `gc_allocation_new(ptr, size, dtor)`: a fresh record is untagged. -/
def gc_allocation_new (ptr size : Nat) (dtor : Option Nat) : Allocation :=
  { ptr := ptr, size := size, tag := GC_TAG_NONE, dtor := dtor }

/-- `struct AllocationMap`: the allocation registry.  `allocs` is the bucket
array; each bucket holds its separate chain as a Lean list, head first. -/
structure AllocationMap where
  capacity : Nat
  min_capacity : Nat
  downsize_factor : ℚ
  upsize_factor : ℚ
  sweep_factor : ℚ
  sweep_limit : Nat
  size : Nat
  allocs : List (List Allocation)
deriving Repr, DecidableEq

/-- Helper for `next_prime`: search upward from `n` for at most `fuel`
candidates, returning the first prime found (or the last candidate if the
fuel runs out, which `next_prime` makes unreachable by Bertrand's
postulate). -/
def nextPrimeFrom : Nat → Nat → Nat
  | 0, n => n
  | fuel + 1, n => if Nat.Prime n then n else nextPrimeFrom fuel (n + 1)

/-- Modelled from the spec: the helper `next_prime` lives in `primes.c`,
which is not part of the sources under consideration; the spec describes it
as "a function mapping an integer to the next prime ≥ it"
(`next_prime(n) → prime ≥ n`), that is, the least prime that is greater
than or equal to `n`.  The search fuel `n + 3` is enough by Bertrand's
postulate. -/
def next_prime (n : Nat) : Nat := nextPrimeFrom (n + 3) n

/-- All records currently linked from the bucket array, in bucket order and,
within a bucket, chain order.  This is the traversal order of every loop in
the source that walks the whole registry. -/
def AllocationMap.recs (am : AllocationMap) : List Allocation :=
  am.allocs.flatten

/-- `gc_hash`: `((uintptr_t)ptr) >> 3`. -/
def gc_hash (ptr : Nat) : Nat := ptr >>> 3

/-- The bucket index of pointer `p`: `gc_hash(p) % am->capacity`. -/
def bucketIndex (am : AllocationMap) (p : Nat) : Nat :=
  gc_hash p % am.capacity

/-- The bucket list of pointer `p`. -/
def AllocationMap.bucket (am : AllocationMap) (p : Nat) : List Allocation :=
  am.allocs.getD (bucketIndex am p) []

/-- `gc_allocation_map_get(am, ptr)`: walk the chain of the pointer's bucket
and return the first record whose `ptr` field matches. -/
def gc_allocation_map_get (am : AllocationMap) (p : Nat) : Option Allocation :=
  (am.bucket p).find? (fun a => a.ptr == p)

/-- Replace, in place, the first record of a chain whose `ptr` equals `p` by
`f` of it.  This is the shape shared by the in-place updates the source
performs through a node pointer obtained from a chain walk: the upsert arm of
`gc_allocation_map_put` (replace the node), `alloc->tag |= GC_TAG_MARK` in
`gc_mark_alloc`, `chunk->tag &= ~GC_TAG_MARK` in `gc_sweep`, and
`alloc->size = size` in `gc_realloc`. -/
def updateChain (p : Nat) (f : Allocation → Allocation) :
    List Allocation → List Allocation
  | [] => []
  | a :: rest =>
      if a.ptr = p then f a :: rest else a :: updateChain p f rest

/-- Apply `updateChain p f` to the bucket of `p`. -/
def amUpdate (am : AllocationMap) (p : Nat) (f : Allocation → Allocation) :
    AllocationMap :=
  { am with
    allocs := am.allocs.set (bucketIndex am p) (updateChain p f (am.bucket p)) }

/-- One step of the re-homing loop of `gc_allocation_map_resize`: prepend
record `a` to the bucket of `a->ptr` under the new capacity `n`
(`alloc->next = resized_allocs[new_index]; resized_allocs[new_index] = alloc`). -/
def bucketInsert (n : Nat) (acc : List (List Allocation)) (a : Allocation) :
    List (List Allocation) :=
  let i := gc_hash a.ptr % n
  acc.set i (a :: acc.getD i [])

/-- The re-homing loop of `gc_allocation_map_resize`: traverse the old bucket
array in bucket order, chain order, pushing each record into its new bucket. -/
def rehome (n : Nat) (allocs : List (List Allocation)) :
    List (List Allocation) :=
  allocs.foldl (fun acc chain => chain.foldl (bucketInsert n) acc)
    (List.replicate n [])

/-- `gc_allocation_map_load_factor(am)`: `(double)am->size / (double)am->capacity`,
as the exact rational `size / capacity` (`mkRat` is that quotient; for the
tiny numerators and denominators that occur, the exact comparison against a
factor agrees with the C `double` comparison). -/
def gc_allocation_map_load_factor (am : AllocationMap) : ℚ :=
  mkRat am.size am.capacity

/-- The initial sweep limit `(int)(sweep_factor * capacity)`: the exact value
`sweep_factor * capacity` is `(sf.num * capacity) / sf.den`, and the C cast
truncates it to an integer (the embedding covers the nonnegative factors
`gc_start_ext` produces; `Rat` denominators are positive, so integer division
is that truncation). -/
def sweepLimitInit (sf : ℚ) (cap : Nat) : Nat :=
  ((sf.num * (cap : Int)) / (sf.den : Int)).toNat

/-- The sweep limit recomputed by resize:
`am->size + am->sweep_factor * (am->capacity - am->size)` truncated to
`size_t`, computed on the exact rational
`(size * sf.den + sf.num * (capacity - size)) / sf.den`.  (The embedding
assumes `size ≤ capacity`, which holds in every reachable state; the C
expression wraps around in unsigned arithmetic otherwise.) -/
def sweepLimitResize (sf : ℚ) (size cap : Nat) : Nat :=
  (((size : Int) * (sf.den : Int) + sf.num * ((cap : Int) - (size : Int))) /
    (sf.den : Int)).toNat

/-- `gc_allocation_map_resize(am, new_capacity)`.  A request that does not
exceed `min_capacity` is a no-op.  Otherwise the records are re-homed under
the new modulus and the sweep limit is recomputed as
`size + sweep_factor * (capacity - size)`. -/
def gc_allocation_map_resize (am : AllocationMap) (new_capacity : Nat) :
    AllocationMap :=
  if new_capacity ≤ am.min_capacity then am
  else
    { am with
      capacity := new_capacity,
      allocs := rehome new_capacity am.allocs,
      sweep_limit := sweepLimitResize am.sweep_factor am.size new_capacity }

/-- `gc_allocation_map_put(am, ptr, size, dtor)`.  If a record with this
pointer already exists in the bucket chain, it is replaced in place by a
fresh record (an upsert; the fresh record is untagged) and the registry size
is unchanged.  Otherwise the fresh record is prepended to the chain, the size
grows, and a load factor above `upsize_factor` triggers an upsize to
`next_prime(capacity * 2)`. -/
def gc_allocation_map_put (am : AllocationMap) (p s : Nat) (d : Option Nat) :
    AllocationMap :=
  let newA := gc_allocation_new p s d
  if (am.bucket p).any (fun a => a.ptr == p) then
    amUpdate am p (fun _ => newA)
  else
    let am' := { am with
      allocs := am.allocs.set (bucketIndex am p) (newA :: am.bucket p),
      size := am.size + 1 }
    if gc_allocation_map_load_factor am' > am'.upsize_factor then
      gc_allocation_map_resize am' (next_prime (am'.capacity * 2))
    else am'

/-- The chain walk of `gc_allocation_map_remove`: the loop unlinks and
deletes every node whose `ptr` matches (tracing the `prev`/`cur` pointer
manipulation shows it removes all matches, reading `cur->next` of the freed
node with its value at free time), so the surviving chain is the filtered
chain. -/
def removeChain (p : Nat) (l : List Allocation) : List Allocation :=
  l.filter (fun a => a.ptr ≠ p)

/-- `gc_allocation_map_remove` before its load-factor check: unlink all
matching records and decrement `size` once per removed record. -/
def gc_allocation_map_removeCore (am : AllocationMap) (p : Nat) :
    AllocationMap :=
  let bucket := am.bucket p
  { am with
    allocs := am.allocs.set (bucketIndex am p) (removeChain p bucket),
    size := am.size - bucket.countP (fun a => a.ptr == p) }

/-- `gc_allocation_map_remove(am, ptr)`: unknown pointers are ignored by the
chain walk; afterwards a load factor below `downsize_factor` triggers a
downsize request to `next_prime(capacity / 2)`. -/
def gc_allocation_map_remove (am : AllocationMap) (p : Nat) : AllocationMap :=
  let am' := gc_allocation_map_removeCore am p
  if gc_allocation_map_load_factor am' < am'.downsize_factor then
    gc_allocation_map_resize am' (next_prime (am'.capacity / 2))
  else am'

/-- `gc_allocation_map_new(min_capacity, capacity, sweep_factor,
downsize_factor, upsize_factor)`.  The initial sweep limit is
`(int)(sweep_factor * capacity)`. -/
def gc_allocation_map_new (min_capacity capacity : Nat)
    (sweep_factor downsize_factor upsize_factor : ℚ) : AllocationMap :=
  let mc := next_prime min_capacity
  let c0 := next_prime capacity
  let c := if c0 < mc then mc else c0
  { capacity := c
    min_capacity := mc
    downsize_factor := downsize_factor
    upsize_factor := upsize_factor
    sweep_factor := sweep_factor
    sweep_limit := sweepLimitInit sweep_factor c
    size := 0
    allocs := List.replicate c [] }

/-- The number of records in the registry. -/
def countAllocs (am : AllocationMap) : Nat := am.recs.length

/-- The number of records whose MARK bit is clear. -/
def unmarkedCount (am : AllocationMap) : Nat :=
  (am.recs.filter (fun a => !a.tag.mark)).length

/-- Set the MARK bit: `alloc->tag |= GC_TAG_MARK`. -/
def setMark (a : Allocation) : Allocation :=
  { a with tag := { a.tag with mark := true } }

/-- Clear the MARK bit: `chunk->tag &= ~GC_TAG_MARK`. -/
def clearMark (a : Allocation) : Allocation :=
  { a with tag := { a.tag with mark := false } }

/-- The candidate pointer values `gc_mark_alloc` reads out of the client
region of record `a`: `*(void**)p` for every byte address `p` in
`[a.ptr, a.ptr + a.size)`. -/
def regionCandidates (mem : Nat → Nat) (a : Allocation) : List Nat :=
  (List.range a.size).map (fun off => mem (a.ptr + off))

/-- Fold a marking step over a list of candidate pointers (the body of the
region scan loop of `gc_mark_alloc`, and of the loops of `gc_mark_roots` and
`gc_mark_stack`). -/
def markListWith (f : AllocationMap → Nat → AllocationMap) :
    AllocationMap → List Nat → AllocationMap
  | am, [] => am
  | am, c :: cs => markListWith f (f am c) cs

/-- `gc_mark_alloc(gc, ptr)`: look the candidate up in the registry; if it is
absent or already marked, return; otherwise set the MARK bit and recurse on
every word read from the record's client region.  The C recursion carries no
fuel; the embedding adds a fuel bounding the recursion *depth*, and
`c9_mark_terminates` below shows any fuel at least the number of registered
allocations yields the same result, which is the C behaviour. -/
def gc_mark_alloc (mem : Nat → Nat) : Nat → AllocationMap → Nat → AllocationMap
  | 0, am, _ => am
  | fuel + 1, am, p =>
    match gc_allocation_map_get am p with
    | none => am
    | some a =>
      if a.tag.mark then am
      else markListWith (gc_mark_alloc mem fuel) (amUpdate am p setMark)
        (regionCandidates mem a)

/-- Run `gc_mark_alloc` with a given fuel on each candidate of a list in
order. -/
def gc_mark_list (mem : Nat → Nat) (fuel : Nat) (am : AllocationMap)
    (cs : List Nat) : AllocationMap :=
  markListWith (gc_mark_alloc mem fuel) am cs

/-- The pointers of the ROOT-tagged records, in registry traversal order:
these are the records `gc_mark_roots` calls `gc_mark_alloc` on.  (The chain
structure and the ROOT bits are unchanged during marking, so reading them
from the starting registry is exact.) -/
def rootPtrs (am : AllocationMap) : List Nat :=
  (am.recs.filter (fun a => a.tag.root)).map (fun a => a.ptr)

/-- `gc_mark_roots(gc)`. -/
def gc_mark_roots (mem : Nat → Nat) (am : AllocationMap) : AllocationMap :=
  gc_mark_list mem (countAllocs am) am (rootPtrs am)

/-- The byte addresses `gc_mark_stack` scans: every address from
`min tos bos` inclusive to `max tos bos` exclusive (the code swaps the two
ends so that it always walks upward). -/
def stackSlots (tos bos : Nat) : List Nat :=
  (List.range (max tos bos - min tos bos)).map (fun i => min tos bos + i)

/-- `gc_mark_stack(gc)`: mark every word value read from the stack region.
The current top of stack (the address of the local `dummy`) is the
parameter `tos`. -/
def gc_mark_stack (mem : Nat → Nat) (tos bos : Nat) (am : AllocationMap) :
    AllocationMap :=
  gc_mark_list mem (countAllocs am) am ((stackSlots tos bos).map mem)

/-- `gc_mark(gc)`: mark from the registered roots, then from the stack.  The
register-spill through `setjmp` has no observable effect in the embedding
(all mutator values are part of `mem`/the stack slots). -/
def gc_mark (mem : Nat → Nat) (tos bos : Nat) (am : AllocationMap) :
    AllocationMap :=
  gc_mark_stack mem tos bos (gc_mark_roots mem am)

/-- Observable side effects of sweeping: the finalizer call
(`chunk->dtor(chunk->ptr)`) and the release of the client region
(`free(chunk->ptr)`). -/
inductive GCEvent
  | finalize (dtor : Nat) (ptr : Nat)
  | free (ptr : Nat)
deriving Repr, DecidableEq

/-- Result of `gc_sweep`: the updated registry, the returned byte total, and
the emitted finalize/free events in order. -/
structure SweepResult where
  am : AllocationMap
  freed : Nat
  events : List GCEvent
deriving Repr, DecidableEq

/-- The straight-line sweep: process the records present at sweep start in
traversal order.  A marked record is unmarked in place; an unmarked record
contributes its size to the total, fires its finalizer (if any), frees its
client region and is removed from the registry (via
`gc_allocation_map_remove`).  This equals the real traversal (the
cursor-level `gc_sweep_exec` below) precisely when every mid-sweep resize
request of `remove`'s load check is a no-op, i.e. at most `min_capacity`:
then neither the bucket array nor any `next` pointer changes under the
walk.  That condition holds on each concrete `gc_run` trace this definition
is used for (capacity already at `min_capacity`); the general case, where a
mid-sweep downsize redirects the traversal, is claim C2/C4's bug and is
treated with `gc_sweep_exec`. -/
def sweepList : AllocationMap → Nat → List GCEvent → List Allocation → SweepResult
  | am, total, evs, [] => ⟨am, total, evs⟩
  | am, total, evs, chunk :: rest =>
    if chunk.tag.mark then
      sweepList (amUpdate am chunk.ptr clearMark) total evs rest
    else
      sweepList (gc_allocation_map_remove am chunk.ptr) (total + chunk.size)
        (evs ++ (match chunk.dtor with
                 | some d => [GCEvent.finalize d chunk.ptr]
                 | none => []) ++ [GCEvent.free chunk.ptr]) rest

/-- `gc_sweep(gc)` as the straight-line walk over every bucket chain in
order (see `sweepList` for the exact condition under which this is the real
traversal). -/
def gc_sweep (am : AllocationMap) : SweepResult :=
  sweepList am 0 [] am.recs

/-- The `next` field of the live node keyed `p`: the record after `p` inside
the given chain, `none` for the end of the chain (`NULL`). -/
def chainNextPtr : List Allocation → Nat → Option Nat
  | [], _ => none
  | a :: rest, p =>
    if a.ptr = p then rest.head?.map (fun b => b.ptr) else chainNextPtr rest p

/-- The current value of `node->next` for the live node keyed `p`, read off
the current table.  When `gc_allocation_map_remove` frees the node for `p`,
the freed memory keeps exactly the value this gives in the pre-removal
table: `remove` never writes the removed node's own `next` field, and the
rehoming of a resize only rewrites nodes still in the table.  So this also
gives the value `gc_sweep` reads back out of the node it just freed. -/
def liveNext (am : AllocationMap) (p : Nat) : Option Nat :=
  chainNextPtr (am.bucket p) p

/-- `gc->allocs->allocs[i]` as a node key: the head of bucket `i` of the
current table. -/
def bucketHeadPtr (am : AllocationMap) (i : Nat) : Option Nat :=
  (am.allocs.getD i []).head?.map (fun a => a.ptr)

/-- The inner loop of the real `gc_sweep` (gc.c:476-495), at cursor level.
The argument of type `Option Nat` is the C variable `chunk`: the address of
the current node, identified by its `ptr` key (node addresses are in
bijection with keys while the registry is well-formed), `none` for `NULL`.
Every dereference re-reads the node from the *current* registry, as the C
pointer accesses do.  A marked node has MARK cleared in place; an unmarked
node adds its size to the total, fires its finalizer, frees its region and
is removed — and `gc_allocation_map_remove` then runs its unconditional
load-factor check, which can downsize-resize the table in the middle of the
sweep.  The closing `chunk = chunk->next` of the unmarked branch reads the
*freed* node, whose memory still holds the successor the node had when it
was unlinked (`liveNext` of the pre-removal table).  Returns `none` if the
fuel runs out or the cursor dangles (neither happens on the runs below). -/
def sweepChainExec : Nat → SweepResult → Option Nat → Option SweepResult
  | _, st, none => some st
  | 0, _, some _ => none
  | fuel + 1, st, some p =>
    match gc_allocation_map_get st.am p with
    | none => none
    | some a =>
      if a.tag.mark then
        sweepChainExec fuel ⟨amUpdate st.am p clearMark, st.freed, st.events⟩
          (liveNext (amUpdate st.am p clearMark) p)
      else
        sweepChainExec fuel
          ⟨gc_allocation_map_remove st.am p, st.freed + a.size,
            st.events ++ (match a.dtor with
                          | some d => [GCEvent.finalize d p]
                          | none => []) ++ [GCEvent.free p]⟩
          (liveNext st.am p)

/-- The outer loop of the real `gc_sweep`: the condition
`i < gc->allocs->capacity` re-reads the capacity on every iteration and
`gc->allocs->allocs[i]` is read from the current bucket array, so after a
mid-sweep downsize the loop runs on against the new, smaller table — and can
meet (and free) a rehomed record whose MARK bit it already cleared. -/
def sweepBucketsExec : Nat → SweepResult → Nat → Option SweepResult
  | 0, _, _ => none
  | fuel + 1, st, i =>
    if i < st.am.capacity then
      match sweepChainExec (fuel + 1) st (bucketHeadPtr st.am i) with
      | some st2 => sweepBucketsExec fuel st2 (i + 1)
      | none => none
    else
      some st

/-- `gc_sweep(gc)`, faithful to the source's traversal of the live table
(including mid-sweep resizes).  Fuel-indexed; `none` on fuel exhaustion, so
a `some` result is a complete, finished run of the C loop. -/
def gc_sweep_exec (fuel : Nat) (am : AllocationMap) : Option SweepResult :=
  sweepBucketsExec fuel ⟨am, 0, []⟩ 0

/-- `struct GarbageCollector`: the public facade. -/
structure GarbageCollector where
  paused : Bool
  bos : Nat
  allocs : AllocationMap
deriving Repr, DecidableEq

/-- `gc_run(gc)`: mark, then sweep; returns the freed byte count. -/
def gc_run (mem : Nat → Nat) (tos : Nat) (gc : GarbageCollector) :
    Nat × GarbageCollector :=
  let r := gc_sweep (gc_mark mem tos gc.bos gc.allocs)
  (r.freed, { gc with allocs := r.am })

/-- `gc_pause(gc)`. -/
def gc_pause (gc : GarbageCollector) : GarbageCollector :=
  { gc with paused := true }

/-- `gc_resume(gc)`. -/
def gc_resume (gc : GarbageCollector) : GarbageCollector :=
  { gc with paused := false }

/-- `gc_allocate(gc, count, size, dtor)`, the shared path of
`gc_malloc`/`gc_malloc_ext`/`gc_calloc`/`gc_calloc_ext`.  The system
allocator is abstracted by two oracles: `sys1` is the result of the first
`gc_mcalloc` attempt and `sys2` the result of the retry after a collection
(`none` is a NULL return); `errnoOOM` tells whether a failed first attempt
left `errno` at `EAGAIN`/`ENOMEM`.  `gc_allocation_map_put` cannot fail in
the source (`gc_allocation_new` never checks its own `malloc`, and `put`
always returns its freshly built node), so the metadata-failure branch of the
source is dead code and has no counterpart here.  Note the source consults
`gc->paused` nowhere on this path. -/
def gc_allocate (mem : Nat → Nat) (tos : Nat) (gc : GarbageCollector)
    (sys1 sys2 : Option Nat) (errnoOOM : Bool)
    (count size : Nat) (dtor : Option Nat) : Option Nat × GarbageCollector :=
  let alloc_size := if count ≠ 0 then count * size else size
  let afterSys : Option Nat × GarbageCollector :=
    match sys1 with
    | some p => (some p, gc)
    | none =>
      if errnoOOM then (sys2, (gc_run mem tos gc).2)
      else (none, gc)
  match afterSys with
  | (none, gc₁) => (none, gc₁)
  | (some p, gc₁) =>
    let gc₂ := { gc₁ with allocs := gc_allocation_map_put gc₁.allocs p alloc_size dtor }
    if gc₂.allocs.size > gc₂.allocs.sweep_limit then
      (some p, (gc_run mem tos gc₂).2)
    else (some p, gc₂)

/-- `gc_malloc(gc, size)` = `gc_malloc_ext(gc, size, NULL)`. -/
def gc_malloc (mem : Nat → Nat) (tos : Nat) (gc : GarbageCollector)
    (sys1 sys2 : Option Nat) (errnoOOM : Bool) (size : Nat) :
    Option Nat × GarbageCollector :=
  gc_allocate mem tos gc sys1 sys2 errnoOOM 0 size none

/-- `gc_malloc_ext(gc, size, dtor)`. -/
def gc_malloc_ext (mem : Nat → Nat) (tos : Nat) (gc : GarbageCollector)
    (sys1 sys2 : Option Nat) (errnoOOM : Bool) (size : Nat) (dtor : Option Nat) :
    Option Nat × GarbageCollector :=
  gc_allocate mem tos gc sys1 sys2 errnoOOM 0 size dtor

/-- `gc_calloc(gc, count, size)` = `gc_calloc_ext(gc, count, size, NULL)`. -/
def gc_calloc (mem : Nat → Nat) (tos : Nat) (gc : GarbageCollector)
    (sys1 sys2 : Option Nat) (errnoOOM : Bool) (count size : Nat) :
    Option Nat × GarbageCollector :=
  gc_allocate mem tos gc sys1 sys2 errnoOOM count size none

/-- `gc_calloc_ext(gc, count, size, dtor)`. -/
def gc_calloc_ext (mem : Nat → Nat) (tos : Nat) (gc : GarbageCollector)
    (sys1 sys2 : Option Nat) (errnoOOM : Bool) (count size : Nat)
    (dtor : Option Nat) : Option Nat × GarbageCollector :=
  gc_allocate mem tos gc sys1 sys2 errnoOOM count size dtor

/-- The `errno` value `EINVAL` (the only errno the collector itself ever
stores); its concrete value is irrelevant to the claims. -/
def EINVAL : Nat := 22

/-- `gc_realloc(gc, p, size)`.  The oracle `sys` is the result of the system
`realloc(p, size)` call (`none` is a NULL return).  The result triple is
(returned pointer, new collector state, errno value stored by the collector
itself, if any).  Fidelity notes, all visible in the source:
* a non-null `p` unknown to the registry fails with `EINVAL` before touching
  memory;
* a NULL system result returns NULL with the registry untouched;
* `p == NULL` registers the fresh pointer with no finalizer;
* an in-place reallocation updates `alloc->size` through the node pointer;
* a moved reallocation removes the old record and then calls
  `gc_allocation_map_put(gc->allocs, p, size, alloc->dtor)` — under the
  *old* key `p`, not the new address `q` (and it reads `alloc->dtor` from
  the node that `remove` just freed; the embedding uses the value at free
  time). -/
def gc_realloc (gc : GarbageCollector) (p size : Nat) (sys : Option Nat) :
    Option Nat × GarbageCollector × Option Nat :=
  match gc_allocation_map_get gc.allocs p with
  | none =>
    if p ≠ 0 then (none, gc, some EINVAL)
    else
      match sys with
      | none => (none, gc, none)
      | some q =>
        let am := gc_allocation_map_put gc.allocs q size none
        (some q, { gc with allocs := am }, none)
  | some alloc =>
    match sys with
    | none => (none, gc, none)
    | some q =>
      if p = 0 then
        let am := gc_allocation_map_put gc.allocs q size none
        (some q, { gc with allocs := am }, none)
      else if p = q then
        (some q, { gc with allocs := amUpdate gc.allocs p (fun a => { a with size := size }) }, none)
      else
        let am₁ := gc_allocation_map_remove gc.allocs p
        let am₂ := gc_allocation_map_put am₁ p size alloc.dtor
        (some q, { gc with allocs := am₂ }, none)

/-- `gc_start_ext(gc, bos, initial_capacity, min_capacity,
downsize_load_factor, upsize_load_factor, sweep_factor)`: non-positive
factors fall back to the defaults 0.2 / 0.8 / 0.5, the initial capacity is
raised to `min_capacity` if smaller, and the collector starts unpaused. -/
def gc_start_ext (bos : Nat) (initial_capacity min_capacity : Nat)
    (downsize_load_factor upsize_load_factor sweep_factor : ℚ) :
    GarbageCollector :=
  let downsize_limit := if downsize_load_factor > 0 then downsize_load_factor else mkRat 1 5
  let upsize_limit := if upsize_load_factor > 0 then upsize_load_factor else mkRat 4 5
  let sf := if sweep_factor > 0 then sweep_factor else mkRat 1 2
  let ic := if initial_capacity < min_capacity then min_capacity else initial_capacity
  { paused := false
    bos := bos
    allocs := gc_allocation_map_new min_capacity ic sf downsize_limit upsize_limit }

/-- `gc_start(gc, bos)`. -/
def gc_start (bos : Nat) : GarbageCollector :=
  gc_start_ext bos 1024 1024 (mkRat 1 5) (mkRat 4 5) (mkRat 1 2)

/-! ## Properties of `next_prime` -/

theorem nextPrimeFrom_spec : ∀ (fuel n : Nat),
    (∃ p, Nat.Prime p ∧ n ≤ p ∧ p < n + fuel) →
    Nat.Prime (nextPrimeFrom fuel n) ∧ n ≤ nextPrimeFrom fuel n ∧
      ∀ q, Nat.Prime q → n ≤ q → nextPrimeFrom fuel n ≤ q := by
  intro fuel
  induction fuel with
  | zero => intro n ⟨p, _, h1, h2⟩; omega
  | succ fuel ih =>
    intro n h
    by_cases hp : Nat.Prime n
    · simpa [nextPrimeFrom, hp] using fun q _ hq => hq
    · obtain ⟨p, pp, hnp, hlt⟩ := h
      have hne : p ≠ n := fun e => hp (e ▸ pp)
      have ih' := ih (n + 1) ⟨p, pp, by omega, by omega⟩
      simp only [nextPrimeFrom, hp, if_false]
      refine ⟨ih'.1, by omega, fun q hq hnq => ?_⟩
      have : q ≠ n := fun e => hp (e ▸ hq)
      exact ih'.2.2 q hq (by omega)

theorem exists_prime_in_search_range (n : Nat) :
    ∃ p, Nat.Prime p ∧ n ≤ p ∧ p < n + (n + 3) := by
  rcases Nat.eq_zero_or_pos n with h | h
  · exact ⟨2, Nat.prime_two, by omega, by omega⟩
  · obtain ⟨p, pp, h1, h2⟩ := Nat.exists_prime_lt_and_le_two_mul n (by omega)
    exact ⟨p, pp, by omega, by omega⟩

theorem next_prime_prime (n : Nat) : Nat.Prime (next_prime n) :=
  (nextPrimeFrom_spec _ n (exists_prime_in_search_range n)).1

theorem next_prime_ge (n : Nat) : n ≤ next_prime n :=
  (nextPrimeFrom_spec _ n (exists_prime_in_search_range n)).2.1

theorem next_prime_min (n q : Nat) (hq : Nat.Prime q) (hnq : n ≤ q) :
    next_prime n ≤ q :=
  (nextPrimeFrom_spec _ n (exists_prime_in_search_range n)).2.2 q hq hnq

theorem next_prime_two_le (n : Nat) : 2 ≤ next_prime n :=
  (next_prime_prime n).two_le

/-! ## The structural well-formedness invariant of the registry -/

/-- The structural invariant of an `AllocationMap`: the bucket array has
`capacity` buckets, the capacity is positive, every record sits in the bucket
its hash selects, no two records share a pointer, and `size` counts the
records. -/
def WF (am : AllocationMap) : Prop :=
  am.allocs.length = am.capacity ∧
  0 < am.capacity ∧
  (∀ i < am.allocs.length, ∀ a ∈ am.allocs.getD i [], gc_hash a.ptr % am.capacity = i) ∧
  (am.recs.map (fun a => a.ptr)).Nodup ∧
  am.size = am.recs.length

instance (am : AllocationMap) : Decidable (WF am) := by
  unfold WF; infer_instance

theorem WF.length_allocs {am : AllocationMap} (h : WF am) :
    am.allocs.length = am.capacity := h.1

theorem WF.capacity_pos {am : AllocationMap} (h : WF am) : 0 < am.capacity := h.2.1

theorem WF.bucket_correct {am : AllocationMap} (h : WF am) :
    ∀ i < am.allocs.length, ∀ a ∈ am.allocs.getD i [], gc_hash a.ptr % am.capacity = i :=
  h.2.2.1

theorem WF.ptr_nodup {am : AllocationMap} (h : WF am) :
    (am.recs.map (fun a => a.ptr)).Nodup := h.2.2.2.1

theorem WF.size_eq {am : AllocationMap} (h : WF am) :
    am.size = am.recs.length := h.2.2.2.2

theorem bucketIndex_lt (am : AllocationMap) (p : Nat) (h : 0 < am.capacity) :
    bucketIndex am p < am.capacity :=
  Nat.mod_lt _ h

/-! ## List decomposition helpers -/

theorem list_eq_take_getD_cons_drop {α : Type} (l : List α) (i : Nat) (d : α)
    (h : i < l.length) :
    l = l.take i ++ l.getD i d :: l.drop (i + 1) := by
  induction l generalizing i with
  | nil => simp at h
  | cons a t ihl =>
    cases i with
    | zero => simp [List.getD]
    | succ i =>
      simp only [List.take_succ_cons, List.drop_succ_cons, List.cons_append,
        List.cons.injEq, true_and]
      simpa [List.getD] using ihl i (by simpa using h)

theorem list_set_eq_take_cons_drop {α : Type} (l : List α) (i : Nat) (b : α)
    (h : i < l.length) :
    l.set i b = l.take i ++ b :: l.drop (i + 1) := by
  induction l generalizing i with
  | nil => simp at h
  | cons a t ihl =>
    cases i with
    | zero => simp
    | succ i => simpa using ihl i (by simpa using h)

theorem getD_set_ne {α : Type} (l : List α) (i j : Nat) (b d : α) (h : i ≠ j) :
    (l.set i b).getD j d = l.getD j d := by
  simp [List.getD_eq_getD_get?, List.get?_eq_getElem?, List.getElem?_set_ne h]

theorem getD_set_self {α : Type} (l : List α) (i : Nat) (b d : α)
    (h : i < l.length) :
    (l.set i b).getD i d = b := by
  simp [List.getD_eq_getD_get?, List.get?_eq_getElem?, List.getElem?_set_self, h]

/-! ## Chain-level lemmas -/

theorem updateChain_map_ptr {p : Nat} {f : Allocation → Allocation}
    (hf : ∀ a : Allocation, a.ptr = p → (f a).ptr = p) (l : List Allocation) :
    (updateChain p f l).map (fun a => a.ptr) = l.map (fun a => a.ptr) := by
  induction l with
  | nil => rfl
  | cons a rest ih =>
    by_cases h : a.ptr = p
    · simp [updateChain, h, hf a h]
    · simp [updateChain, h, ih]

theorem find?_updateChain_self {p : Nat} {f : Allocation → Allocation}
    (hf : ∀ a : Allocation, a.ptr = p → (f a).ptr = p) (l : List Allocation) :
    (updateChain p f l).find? (fun a => a.ptr == p) =
      (l.find? (fun a => a.ptr == p)).map f := by
  induction l with
  | nil => rfl
  | cons a rest ih =>
    by_cases h : a.ptr = p
    · rw [updateChain, if_pos h, List.find?_cons_of_pos _ (by simp [hf a h]),
        List.find?_cons_of_pos _ (by simp [h]), Option.map_some']
    · rw [updateChain, if_neg h, List.find?_cons_of_neg _ (by simp [h]),
        List.find?_cons_of_neg _ (by simp [h]), ih]

theorem find?_updateChain_ne {p q : Nat} {f : Allocation → Allocation}
    (hf : ∀ a : Allocation, a.ptr = p → (f a).ptr = p) (hq : q ≠ p)
    (l : List Allocation) :
    (updateChain p f l).find? (fun a => a.ptr == q) =
      l.find? (fun a => a.ptr == q) := by
  induction l with
  | nil => rfl
  | cons a rest ih =>
    by_cases h : a.ptr = p
    · have h1 : ((f a).ptr == q) = false := by
        rw [hf a h]; exact beq_eq_false_iff_ne.2 fun e => hq e.symm
      have h2 : (a.ptr == q) = false := by
        rw [h]; exact beq_eq_false_iff_ne.2 fun e => hq e.symm
      rw [updateChain, if_pos h, List.find?_cons_of_neg _ (by simp [h1]),
        List.find?_cons_of_neg _ (by simp [h2])]
    · by_cases h3 : a.ptr = q
      · rw [updateChain, if_neg h, List.find?_cons_of_pos _ (by simp [h3]),
          List.find?_cons_of_pos _ (by simp [h3])]
      · rw [updateChain, if_neg h, List.find?_cons_of_neg _ (by simp [h3]),
          List.find?_cons_of_neg _ (by simp [h3]), ih]

theorem updateChain_of_no_match {p : Nat} {f : Allocation → Allocation}
    (l : List Allocation) (h : ∀ a ∈ l, a.ptr ≠ p) :
    updateChain p f l = l := by
  induction l with
  | nil => rfl
  | cons a rest ih =>
    simp only [updateChain, h a (by simp), if_false]
    rw [ih fun a ha => h a (by simp [ha])]

theorem updateChain_decomp {p : Nat} (f : Allocation → Allocation)
    (l : List Allocation) (a : Allocation)
    (h : l.find? (fun x => x.ptr == p) = some a) :
    ∃ l₁ l₂, l = l₁ ++ a :: l₂ ∧ updateChain p f l = l₁ ++ f a :: l₂ := by
  induction l with
  | nil => simp at h
  | cons b rest ih =>
    by_cases hb : b.ptr = p
    · rw [List.find?_cons_of_pos _ (by simp [hb])] at h
      obtain rfl : b = a := by injection h
      exact ⟨[], rest, by simp, by simp [updateChain, hb]⟩
    · rw [List.find?_cons_of_neg _ (by simp [hb])] at h
      obtain ⟨l₁, l₂, he, hu⟩ := ih h
      exact ⟨b :: l₁, l₂, by simp [he], by simp [updateChain, hb, hu]⟩

theorem find?_removeChain_self (p : Nat) (l : List Allocation) :
    (removeChain p l).find? (fun a => a.ptr == p) = none := by
  rw [List.find?_eq_none]
  intro a ha
  have := List.of_mem_filter ha
  simp at this ⊢
  omega

theorem find?_removeChain_ne {p q : Nat} (hq : q ≠ p) (l : List Allocation) :
    (removeChain p l).find? (fun a => a.ptr == q) =
      l.find? (fun a => a.ptr == q) := by
  induction l with
  | nil => rfl
  | cons a rest ih =>
    by_cases h : a.ptr = p
    · have h2 : (a.ptr == q) = false := by
        rw [h]; exact beq_eq_false_iff_ne.2 fun e => hq e.symm
      rw [removeChain, List.filter_cons_of_neg (by simp [h]),
        List.find?_cons_of_neg _ (by simp [h2])]
      exact ih
    · by_cases h3 : a.ptr = q
      · rw [removeChain, List.filter_cons_of_pos (by simp [h]),
          List.find?_cons_of_pos _ (by simp [h3]),
          List.find?_cons_of_pos _ (by simp [h3])]
      · rw [removeChain, List.filter_cons_of_pos (by simp [h]),
          List.find?_cons_of_neg _ (by simp [h3]),
          List.find?_cons_of_neg _ (by simp [h3])]
        exact ih

/-! ## Characterization of `gc_allocation_map_get` under `WF` -/

theorem bucket_subset_recs {am : AllocationMap} (hwf : WF am) (q : Nat) :
    ∀ a ∈ am.bucket q, a ∈ am.recs := by
  intro a ha
  unfold AllocationMap.bucket at ha
  by_cases h : bucketIndex am q < am.allocs.length
  · rw [List.getD_eq_getElem _ _ h] at ha
    exact List.mem_flatten.2 ⟨_, List.getElem_mem h, ha⟩
  · rw [List.getD_eq_default _ _ (by omega)] at ha
    simp at ha

theorem mem_bucket_of_mem_recs {am : AllocationMap} (hwf : WF am)
    {a : Allocation} (ha : a ∈ am.recs) : a ∈ am.bucket a.ptr := by
  obtain ⟨l, hl, hal⟩ := List.mem_flatten.1 ha
  obtain ⟨j, hj, rfl⟩ := List.mem_iff_getElem.1 hl
  have hb := hwf.bucket_correct j hj a (by rw [List.getD_eq_getElem _ _ hj]; exact hal)
  have : bucketIndex am a.ptr = j := hb
  unfold AllocationMap.bucket
  rw [this, List.getD_eq_getElem _ _ hj]
  exact hal

theorem recs_ptr_unique {am : AllocationMap} (hwf : WF am)
    {a b : Allocation} (ha : a ∈ am.recs) (hb : b ∈ am.recs)
    (hab : a.ptr = b.ptr) : a = b :=
  List.inj_on_of_nodup_map hwf.ptr_nodup ha hb hab

theorem get_some_char {am : AllocationMap} (hwf : WF am) {q : Nat}
    {a : Allocation} :
    gc_allocation_map_get am q = some a ↔ a ∈ am.recs ∧ a.ptr = q := by
  constructor
  · intro h
    have hm := List.mem_of_find?_eq_some h
    have hp := List.find?_some h
    exact ⟨bucket_subset_recs hwf q a hm, by simpa using hp⟩
  · rintro ⟨ha, rfl⟩
    have hab : a ∈ am.bucket a.ptr := mem_bucket_of_mem_recs hwf ha
    have hsome : ((am.bucket a.ptr).find? (fun x => x.ptr == a.ptr)).isSome := by
      rw [List.find?_isSome]
      exact ⟨a, hab, by simp⟩
    obtain ⟨b, hb⟩ := Option.isSome_iff_exists.1 hsome
    have hbm := List.mem_of_find?_eq_some hb
    have hbp : b.ptr = a.ptr := by simpa using List.find?_some hb
    have : b = a := recs_ptr_unique hwf (bucket_subset_recs hwf _ b hbm) ha hbp
    rw [gc_allocation_map_get, hb, this]

theorem get_none_char {am : AllocationMap} (hwf : WF am) {q : Nat} :
    gc_allocation_map_get am q = none ↔ ∀ a ∈ am.recs, a.ptr ≠ q := by
  constructor
  · intro h a ha hq
    have : gc_allocation_map_get am q = some a := (get_some_char hwf).2 ⟨ha, hq⟩
    rw [h] at this; exact Option.noConfusion this
  · intro h
    rw [gc_allocation_map_get, List.find?_eq_none]
    intro a ha
    simpa using h a (bucket_subset_recs hwf q a ha)

/-! ## Effects of `amUpdate` (in-place node updates) -/

theorem recs_decomp (am : AllocationMap) (i : Nat) (h : i < am.allocs.length) :
    am.recs = (am.allocs.take i).flatten ++ am.allocs.getD i [] ++
      (am.allocs.drop (i + 1)).flatten := by
  unfold AllocationMap.recs
  conv_lhs => rw [list_eq_take_getD_cons_drop am.allocs i [] h]
  rw [List.flatten_append, List.flatten_cons, List.append_assoc]

theorem recs_set (am : AllocationMap) (i : Nat) (b : List Allocation)
    (h : i < am.allocs.length) :
    (am.allocs.set i b).flatten =
      (am.allocs.take i).flatten ++ b ++ (am.allocs.drop (i + 1)).flatten := by
  rw [list_set_eq_take_cons_drop _ _ _ h, List.flatten_append, List.flatten_cons,
    List.append_assoc]

theorem bucketIndex_lt_length {am : AllocationMap} (hwf : WF am) (p : Nat) :
    bucketIndex am p < am.allocs.length := by
  rw [hwf.length_allocs]; exact bucketIndex_lt _ _ hwf.capacity_pos

theorem amUpdate_fields (am : AllocationMap) (p : Nat) (f : Allocation → Allocation) :
    (amUpdate am p f).capacity = am.capacity ∧
    (amUpdate am p f).min_capacity = am.min_capacity ∧
    (amUpdate am p f).size = am.size ∧
    (amUpdate am p f).sweep_limit = am.sweep_limit ∧
    (amUpdate am p f).downsize_factor = am.downsize_factor ∧
    (amUpdate am p f).upsize_factor = am.upsize_factor ∧
    (amUpdate am p f).sweep_factor = am.sweep_factor :=
  ⟨rfl, rfl, rfl, rfl, rfl, rfl, rfl⟩

theorem amUpdate_get {am : AllocationMap} {p : Nat} {f : Allocation → Allocation}
    (hwf : WF am) (hf : ∀ a : Allocation, a.ptr = p → (f a).ptr = p) (q : Nat) :
    gc_allocation_map_get (amUpdate am p f) q =
      if q = p then (gc_allocation_map_get am p).map f
      else gc_allocation_map_get am q := by
  have hip : bucketIndex am p < am.allocs.length := bucketIndex_lt_length hwf p
  have hcap : (amUpdate am p f).capacity = am.capacity := rfl
  have hbi : ∀ r, bucketIndex (amUpdate am p f) r = bucketIndex am r := fun _ => rfl
  by_cases hq : q = p
  · subst hq
    show (List.getD (am.allocs.set (bucketIndex am q) _) (bucketIndex am q) []).find? _ = _
    rw [getD_set_self _ _ _ _ hip, if_pos rfl]
    exact find?_updateChain_self hf _
  · by_cases hj : bucketIndex am q = bucketIndex am p
    · show (List.getD (am.allocs.set (bucketIndex am p) _) (bucketIndex am q) []).find? _ = _
      rw [hj, getD_set_self _ _ _ _ hip, if_neg hq]
      show (updateChain p f (am.bucket p)).find? _ = _
      rw [find?_updateChain_ne hf hq]
      show (am.bucket p).find? _ = (am.bucket q).find? _
      unfold AllocationMap.bucket
      rw [hj]
    · show (List.getD (am.allocs.set (bucketIndex am p) _) (bucketIndex am q) []).find? _ = _
      rw [getD_set_ne _ _ _ _ _ fun e => hj e.symm, if_neg hq]
      rfl

theorem amUpdate_recs_map_ptr {am : AllocationMap} {p : Nat}
    {f : Allocation → Allocation} (hwf : WF am)
    (hf : ∀ a : Allocation, a.ptr = p → (f a).ptr = p) :
    (amUpdate am p f).recs.map (fun a => a.ptr) =
      am.recs.map (fun a => a.ptr) := by
  have hip : bucketIndex am p < am.allocs.length := bucketIndex_lt_length hwf p
  show (am.allocs.set (bucketIndex am p) _).flatten.map _ = _
  rw [recs_set _ _ _ hip, recs_decomp am (bucketIndex am p) hip]
  simp only [List.map_append]
  rw [updateChain_map_ptr hf]
  rfl

theorem amUpdate_WF {am : AllocationMap} {p : Nat} {f : Allocation → Allocation}
    (hwf : WF am) (hf : ∀ a : Allocation, a.ptr = p → (f a).ptr = p) :
    WF (amUpdate am p f) := by
  have hip : bucketIndex am p < am.allocs.length := bucketIndex_lt_length hwf p
  have hmap := amUpdate_recs_map_ptr hwf hf
  refine ⟨?_, hwf.capacity_pos, ?_, ?_, ?_⟩
  · show (am.allocs.set _ _).length = am.capacity
    rw [List.length_set]; exact hwf.length_allocs
  · intro j hj a ha
    show gc_hash a.ptr % am.capacity = j
    simp only [amUpdate, List.length_set] at hj
    simp only [amUpdate] at ha
    by_cases hji : j = bucketIndex am p
    · subst hji
      rw [getD_set_self _ _ _ _ hip] at ha
      have : a.ptr ∈ (updateChain p f (am.bucket p)).map (fun a => a.ptr) :=
        List.mem_map_of_mem _ ha
      rw [updateChain_map_ptr hf] at this
      obtain ⟨b, hb, hba⟩ := List.mem_map.1 this
      rw [← hba]
      exact hwf.bucket_correct _ hip b hb
    · rw [getD_set_ne _ _ _ _ _ fun e => hji e.symm] at ha
      exact hwf.bucket_correct j hj a ha
  · show ((amUpdate am p f).recs.map _).Nodup
    rw [hmap]; exact hwf.ptr_nodup
  · show am.size = (amUpdate am p f).recs.length
    have : (amUpdate am p f).recs.length = am.recs.length := by
      have := congrArg List.length hmap
      simpa using this
    rw [this]; exact hwf.size_eq

theorem amUpdate_countP {am : AllocationMap} {p : Nat}
    {f : Allocation → Allocation} (hwf : WF am) (pred : Allocation → Bool)
    {a : Allocation} (hget : gc_allocation_map_get am p = some a) :
    (amUpdate am p f).recs.countP pred + (if pred a then 1 else 0) =
      am.recs.countP pred + (if pred (f a) then 1 else 0) := by
  have hip : bucketIndex am p < am.allocs.length := bucketIndex_lt_length hwf p
  obtain ⟨l₁, l₂, hb, hu⟩ := updateChain_decomp f (am.bucket p) a hget
  have h1 : am.recs = (am.allocs.take (bucketIndex am p)).flatten ++
      (l₁ ++ a :: l₂) ++ (am.allocs.drop (bucketIndex am p + 1)).flatten := by
    rw [recs_decomp am (bucketIndex am p) hip]
    show _ ++ am.bucket p ++ _ = _
    rw [hb]
  have h2 : (amUpdate am p f).recs = (am.allocs.take (bucketIndex am p)).flatten ++
      (l₁ ++ f a :: l₂) ++ (am.allocs.drop (bucketIndex am p + 1)).flatten := by
    show (am.allocs.set (bucketIndex am p) _).flatten = _
    rw [recs_set _ _ _ hip]
    show _ ++ updateChain p f (am.bucket p) ++ _ = _
    rw [hu]
  rw [h1, h2]
  simp only [List.countP_append, List.countP_cons]
  by_cases hpa : pred a = true <;> by_cases hpf : pred (f a) = true <;>
    simp [hpa, hpf] <;> omega

/-! ## Effects of `gc_allocation_map_resize` -/

theorem flatten_getD_decomp {α : Type} (L : List (List α)) (i : Nat)
    (h : i < L.length) :
    L.flatten = (L.take i).flatten ++ L.getD i [] ++ (L.drop (i + 1)).flatten := by
  conv_lhs => rw [list_eq_take_getD_cons_drop L i [] h]
  rw [List.flatten_append, List.flatten_cons, List.append_assoc]

theorem flatten_set {α : Type} (L : List (List α)) (i : Nat) (b : List α)
    (h : i < L.length) :
    (L.set i b).flatten = (L.take i).flatten ++ b ++ (L.drop (i + 1)).flatten := by
  rw [list_set_eq_take_cons_drop _ _ _ h, List.flatten_append, List.flatten_cons,
    List.append_assoc]

theorem bucketInsert_length (n : Nat) (acc : List (List Allocation))
    (a : Allocation) : (bucketInsert n acc a).length = acc.length := by
  simp [bucketInsert]

theorem bucketInsert_flatten_perm (n : Nat) (acc : List (List Allocation))
    (a : Allocation) (hlen : acc.length = n) (hn : 0 < n) :
    (bucketInsert n acc a).flatten.Perm (a :: acc.flatten) := by
  have hi : gc_hash a.ptr % n < acc.length := by rw [hlen]; exact Nat.mod_lt _ hn
  show ((acc.set _ (a :: acc.getD _ [])).flatten).Perm _
  rw [flatten_set _ _ _ hi]
  conv_rhs => rw [flatten_getD_decomp acc (gc_hash a.ptr % n) hi]
  have hmid : ((acc.take (gc_hash a.ptr % n)).flatten ++
      a :: (acc.getD (gc_hash a.ptr % n) [] ++
        (acc.drop (gc_hash a.ptr % n + 1)).flatten)).Perm
      (a :: ((acc.take (gc_hash a.ptr % n)).flatten ++
        (acc.getD (gc_hash a.ptr % n) [] ++
          (acc.drop (gc_hash a.ptr % n + 1)).flatten))) := List.perm_middle
  simpa [List.append_assoc] using hmid

theorem chainFold_length (n : Nat) (chain : List Allocation) :
    ∀ acc : List (List Allocation),
      (chain.foldl (bucketInsert n) acc).length = acc.length := by
  induction chain with
  | nil => intro acc; rfl
  | cons c cs ih =>
    intro acc
    rw [List.foldl_cons, ih, bucketInsert_length]

theorem chainFold_flatten_perm (n : Nat) (hn : 0 < n) (chain : List Allocation) :
    ∀ acc : List (List Allocation), acc.length = n →
      ((chain.foldl (bucketInsert n) acc).flatten).Perm (chain ++ acc.flatten) := by
  induction chain with
  | nil => intro acc _; simp
  | cons c cs ih =>
    intro acc hlen
    rw [List.foldl_cons]
    have h1 := ih (bucketInsert n acc c) (by rw [bucketInsert_length, hlen])
    have h2 : (cs ++ (bucketInsert n acc c).flatten).Perm (cs ++ (c :: acc.flatten)) :=
      (bucketInsert_flatten_perm n acc c hlen hn).append_left cs
    have h3 : (cs ++ (c :: acc.flatten)).Perm (c :: (cs ++ acc.flatten)) :=
      List.perm_middle
    exact (h1.trans h2).trans h3

theorem rehome_length (n : Nat) (allocsL : List (List Allocation)) :
    (rehome n allocsL).length = n := by
  unfold rehome
  have : ∀ (L : List (List Allocation)) (acc : List (List Allocation)),
      (L.foldl (fun acc chain => chain.foldl (bucketInsert n) acc) acc).length =
        acc.length := by
    intro L
    induction L with
    | nil => intro acc; rfl
    | cons l ls ih => intro acc; rw [List.foldl_cons, ih, chainFold_length]
  rw [this, List.length_replicate]

theorem rehome_flatten_perm (n : Nat) (hn : 0 < n)
    (allocsL : List (List Allocation)) :
    ((rehome n allocsL).flatten).Perm allocsL.flatten := by
  unfold rehome
  have key : ∀ (L : List (List Allocation)) (acc : List (List Allocation)),
      acc.length = n →
      ((L.foldl (fun acc chain => chain.foldl (bucketInsert n) acc) acc).flatten).Perm
        (L.flatten ++ acc.flatten) := by
    intro L
    induction L with
    | nil => intro acc _; simp
    | cons l ls ih =>
      intro acc hlen
      rw [List.foldl_cons]
      have h1 := ih (l.foldl (bucketInsert n) acc) (by rw [chainFold_length, hlen])
      have h2 : (ls.flatten ++ (l.foldl (bucketInsert n) acc).flatten).Perm
          (ls.flatten ++ (l ++ acc.flatten)) :=
        (chainFold_flatten_perm n hn l acc hlen).append_left _
      have h3 : (ls.flatten ++ (l ++ acc.flatten)).Perm
          ((l :: ls).flatten ++ acc.flatten) := by
        rw [List.flatten_cons, List.append_assoc]
        exact List.perm_append_comm_assoc _ _ _
      exact (h1.trans h2).trans h3
  have := key allocsL (List.replicate n []) (by simp)
  simpa using this

/-- Bucket correctness of a bare bucket array with respect to modulus `n`. -/
def BucketsCorrect (n : Nat) (L : List (List Allocation)) : Prop :=
  ∀ i < L.length, ∀ a ∈ L.getD i [], gc_hash a.ptr % n = i

theorem bucketInsert_correct {n : Nat} {acc : List (List Allocation)}
    (hlen : acc.length = n) (hn : 0 < n) (hc : BucketsCorrect n acc)
    (a : Allocation) : BucketsCorrect n (bucketInsert n acc a) := by
  intro i hi b hb
  have hlt : gc_hash a.ptr % n < acc.length := by rw [hlen]; exact Nat.mod_lt _ hn
  rw [bucketInsert_length] at hi
  by_cases h : i = gc_hash a.ptr % n
  · subst h
    simp only [bucketInsert] at hb
    rw [getD_set_self _ _ _ _ hlt] at hb
    rcases List.mem_cons.1 hb with rfl | hmem
    · rfl
    · exact hc _ hi b hmem
  · simp only [bucketInsert] at hb
    rw [getD_set_ne _ _ _ _ _ fun e => h e.symm] at hb
    exact hc i hi b hb

theorem chainFold_correct {n : Nat} (hn : 0 < n) (chain : List Allocation) :
    ∀ acc : List (List Allocation), acc.length = n → BucketsCorrect n acc →
      BucketsCorrect n (chain.foldl (bucketInsert n) acc) := by
  induction chain with
  | nil => intro acc _ hc; exact hc
  | cons c cs ih =>
    intro acc hlen hc
    rw [List.foldl_cons]
    exact ih _ (by rw [bucketInsert_length, hlen])
      (bucketInsert_correct hlen hn hc c)

theorem rehome_correct (n : Nat) (hn : 0 < n) (allocsL : List (List Allocation)) :
    BucketsCorrect n (rehome n allocsL) := by
  unfold rehome
  have key : ∀ (L : List (List Allocation)) (acc : List (List Allocation)),
      acc.length = n → BucketsCorrect n acc →
      BucketsCorrect n (L.foldl (fun acc chain => chain.foldl (bucketInsert n) acc) acc) := by
    intro L
    induction L with
    | nil => intro acc _ hc; exact hc
    | cons l ls ih =>
      intro acc hlen hc
      rw [List.foldl_cons]
      exact ih _ (by rw [chainFold_length, hlen]) (chainFold_correct hn l acc hlen hc)
  refine key allocsL _ (by simp) ?_
  intro i hi a ha
  simp only [List.length_replicate] at hi
  rw [List.getD_eq_getElem _ _ (by simpa using hi)] at ha
  simp at ha

theorem resize_recs_perm (am : AllocationMap) (n : Nat) (hn : 0 < n) :
    ((gc_allocation_map_resize am n).recs).Perm am.recs := by
  unfold gc_allocation_map_resize
  split
  · exact List.Perm.refl _
  · exact rehome_flatten_perm n hn am.allocs

theorem resize_WF {am : AllocationMap} {n : Nat} (hwf : WF am) (hn : 0 < n) :
    WF (gc_allocation_map_resize am n) := by
  unfold gc_allocation_map_resize
  split
  · exact hwf
  · have hperm : ((rehome n am.allocs).flatten).Perm am.recs :=
      rehome_flatten_perm n hn am.allocs
    refine ⟨?_, hn, ?_, ?_, ?_⟩
    · show (rehome n am.allocs).length = n
      exact rehome_length n am.allocs
    · intro i hi a ha
      exact rehome_correct n hn am.allocs i hi a ha
    · show ((rehome n am.allocs).flatten.map _).Nodup
      exact ((hperm.map _).nodup_iff).2 hwf.ptr_nodup
    · show am.size = (rehome n am.allocs).flatten.length
      rw [hperm.length_eq]
      exact hwf.size_eq

theorem resize_get {am : AllocationMap} {n : Nat} (hwf : WF am) (hn : 0 < n)
    (q : Nat) :
    gc_allocation_map_get (gc_allocation_map_resize am n) q =
      gc_allocation_map_get am q := by
  have hwf' := resize_WF hwf hn
  have hperm := resize_recs_perm am n hn
  cases hq : gc_allocation_map_get am q with
  | none =>
    rw [get_none_char hwf']
    intro a ha
    exact (get_none_char hwf).1 hq a (hperm.mem_iff.1 ha)
  | some a =>
    obtain ⟨ha, hp⟩ := (get_some_char hwf).1 hq
    exact (get_some_char hwf').2 ⟨hperm.mem_iff.2 ha, hp⟩

theorem resize_fields (am : AllocationMap) (n : Nat) :
    (gc_allocation_map_resize am n).min_capacity = am.min_capacity ∧
    (gc_allocation_map_resize am n).size = am.size ∧
    (gc_allocation_map_resize am n).downsize_factor = am.downsize_factor ∧
    (gc_allocation_map_resize am n).upsize_factor = am.upsize_factor ∧
    (gc_allocation_map_resize am n).sweep_factor = am.sweep_factor := by
  unfold gc_allocation_map_resize
  split <;> exact ⟨rfl, rfl, rfl, rfl, rfl⟩

theorem resize_capacity (am : AllocationMap) (n : Nat) :
    (gc_allocation_map_resize am n).capacity =
      if n ≤ am.min_capacity then am.capacity else n := by
  unfold gc_allocation_map_resize
  by_cases h : n ≤ am.min_capacity
  · rw [if_pos h, if_pos h]
  · rw [if_neg h, if_neg h]

/-! ## Effects of `gc_allocation_map_put` -/

theorem put_found_iff (am : AllocationMap) (p : Nat) :
    ((am.bucket p).any (fun a => a.ptr == p) = true) ↔
      (gc_allocation_map_get am p).isSome := by
  rw [List.any_eq_true, gc_allocation_map_get, List.find?_isSome]

/-- The registry after the prepend arm of `put` (before the load-factor
check). -/
def putInsert (am : AllocationMap) (p s : Nat) (d : Option Nat) :
    AllocationMap :=
  { am with
    allocs := am.allocs.set (bucketIndex am p)
      (gc_allocation_new p s d :: am.bucket p),
    size := am.size + 1 }

theorem put_eq_cases (am : AllocationMap) (p s : Nat) (d : Option Nat) :
    gc_allocation_map_put am p s d =
      if (gc_allocation_map_get am p).isSome then
        amUpdate am p (fun _ => gc_allocation_new p s d)
      else if gc_allocation_map_load_factor (putInsert am p s d) >
          (putInsert am p s d).upsize_factor then
        gc_allocation_map_resize (putInsert am p s d)
          (next_prime ((putInsert am p s d).capacity * 2))
      else putInsert am p s d := by
  rw [gc_allocation_map_put]
  by_cases h : (am.bucket p).any (fun a => a.ptr == p) = true
  · rw [if_pos h, if_pos ((put_found_iff am p).1 h)]
  · rw [if_neg h, if_neg (fun hs => h ((put_found_iff am p).2 hs))]
    rfl

theorem putInsert_recs_perm (am : AllocationMap) (p s : Nat) (d : Option Nat)
    (hip : bucketIndex am p < am.allocs.length) :
    ((putInsert am p s d).recs).Perm (gc_allocation_new p s d :: am.recs) := by
  show ((am.allocs.set _ _).flatten).Perm _
  rw [flatten_set _ _ _ hip]
  conv_rhs => rw [recs_decomp am (bucketIndex am p) hip]
  have hmid : ((am.allocs.take (bucketIndex am p)).flatten ++
      gc_allocation_new p s d :: (am.allocs.getD (bucketIndex am p) [] ++
        (am.allocs.drop (bucketIndex am p + 1)).flatten)).Perm
      (gc_allocation_new p s d :: ((am.allocs.take (bucketIndex am p)).flatten ++
        (am.allocs.getD (bucketIndex am p) [] ++
          (am.allocs.drop (bucketIndex am p + 1)).flatten))) := List.perm_middle
  simpa [List.append_assoc, AllocationMap.bucket] using hmid

theorem putInsert_WF {am : AllocationMap} {p s : Nat} {d : Option Nat}
    (hwf : WF am) (habs : gc_allocation_map_get am p = none) :
    WF (putInsert am p s d) := by
  have hip : bucketIndex am p < am.allocs.length := bucketIndex_lt_length hwf p
  have hnotin : ∀ a ∈ am.recs, a.ptr ≠ p := (get_none_char hwf).1 habs
  refine ⟨?_, hwf.capacity_pos, ?_, ?_, ?_⟩
  · show (am.allocs.set _ _).length = am.capacity
    rw [List.length_set]; exact hwf.length_allocs
  · intro j hj a ha
    show gc_hash a.ptr % am.capacity = j
    simp only [putInsert, List.length_set] at hj
    simp only [putInsert] at ha
    by_cases hji : j = bucketIndex am p
    · subst hji
      rw [getD_set_self _ _ _ _ hip] at ha
      rcases List.mem_cons.1 ha with rfl | hmem
      · rfl
      · exact hwf.bucket_correct _ hip a hmem
    · rw [getD_set_ne _ _ _ _ _ fun e => hji e.symm] at ha
      exact hwf.bucket_correct j hj a ha
  · show (((am.allocs.set _ _).flatten).map _).Nodup
    have hperm := putInsert_recs_perm am p s d hip
    refine ((hperm.map (fun a => a.ptr)).nodup_iff).2 ?_
    rw [List.map_cons]
    refine List.nodup_cons.2 ⟨?_, hwf.ptr_nodup⟩
    intro hpm
    obtain ⟨a, ha, hap⟩ := List.mem_map.1 hpm
    exact hnotin a ha hap
  · show am.size + 1 = ((putInsert am p s d).recs).length
    have hperm := putInsert_recs_perm am p s d hip
    rw [hperm.length_eq, List.length_cons, hwf.size_eq]

theorem putInsert_get {am : AllocationMap} {p s : Nat} {d : Option Nat}
    (hwf : WF am) (q : Nat) :
    gc_allocation_map_get (putInsert am p s d) q =
      if q = p then some (gc_allocation_new p s d)
      else gc_allocation_map_get am q := by
  have hip : bucketIndex am p < am.allocs.length := bucketIndex_lt_length hwf p
  by_cases hq : q = p
  · subst hq
    show (List.getD (am.allocs.set (bucketIndex am q) _) (bucketIndex am q) []).find? _ = _
    rw [getD_set_self _ _ _ _ hip, if_pos rfl,
      List.find?_cons_of_pos _ (by simp [gc_allocation_new])]
  · by_cases hj : bucketIndex am q = bucketIndex am p
    · show (List.getD (am.allocs.set (bucketIndex am p) _) (bucketIndex am q) []).find? _ = _
      rw [hj, getD_set_self _ _ _ _ hip, if_neg hq,
        List.find?_cons_of_neg _ (by simp [gc_allocation_new]; omega)]
      show (am.bucket p).find? _ = (am.bucket q).find? _
      unfold AllocationMap.bucket
      rw [hj]
    · show (List.getD (am.allocs.set (bucketIndex am p) _) (bucketIndex am q) []).find? _ = _
      rw [getD_set_ne _ _ _ _ _ fun e => hj e.symm, if_neg hq]
      rfl

theorem put_WF {am : AllocationMap} {p s : Nat} {d : Option Nat} (hwf : WF am) :
    WF (gc_allocation_map_put am p s d) := by
  rw [put_eq_cases]
  by_cases h : (gc_allocation_map_get am p).isSome
  · rw [if_pos h]
    exact amUpdate_WF hwf (fun a _ => rfl)
  · rw [if_neg h]
    have habs : gc_allocation_map_get am p = none := by
      cases hg : gc_allocation_map_get am p
      · rfl
      · rw [hg] at h; simp at h
    have h1 := @putInsert_WF am p s d hwf habs
    split
    · exact resize_WF h1 (Nat.lt_of_lt_of_le Nat.zero_lt_two (next_prime_two_le _))
    · exact h1

theorem put_get {am : AllocationMap} {p s : Nat} {d : Option Nat} (hwf : WF am)
    (q : Nat) :
    gc_allocation_map_get (gc_allocation_map_put am p s d) q =
      if q = p then some (gc_allocation_new p s d)
      else gc_allocation_map_get am q := by
  rw [put_eq_cases]
  by_cases h : (gc_allocation_map_get am p).isSome
  · rw [if_pos h]
    have hupd : ∀ q' : Nat,
        gc_allocation_map_get (amUpdate am p (fun _ => gc_allocation_new p s d)) q' =
          if q' = p then
            (gc_allocation_map_get am p).map (fun _ => gc_allocation_new p s d)
          else gc_allocation_map_get am q' :=
      amUpdate_get hwf (fun a _ => rfl)
    rw [hupd q]
    by_cases hq : q = p
    · subst hq
      obtain ⟨a, ha⟩ := Option.isSome_iff_exists.1 h
      rw [if_pos rfl, if_pos rfl, ha, Option.map_some']
    · rw [if_neg hq, if_neg hq]
  · rw [if_neg h]
    have habs : gc_allocation_map_get am p = none := by
      cases hg : gc_allocation_map_get am p
      · rfl
      · rw [hg] at h; simp at h
    have h1 := @putInsert_WF am p s d hwf habs
    split
    · rw [resize_get h1 (Nat.lt_of_lt_of_le Nat.zero_lt_two (next_prime_two_le _)) q]
      exact putInsert_get hwf q
    · exact putInsert_get hwf q

theorem put_size {am : AllocationMap} {p s : Nat} {d : Option Nat} :
    (gc_allocation_map_put am p s d).size =
      if (gc_allocation_map_get am p).isSome then am.size else am.size + 1 := by
  rw [put_eq_cases]
  by_cases h : (gc_allocation_map_get am p).isSome
  · rw [if_pos h, if_pos h]; rfl
  · rw [if_neg h, if_neg h]
    split
    · exact (resize_fields _ _).2.1
    · rfl

theorem put_min_capacity (am : AllocationMap) (p s : Nat) (d : Option Nat) :
    (gc_allocation_map_put am p s d).min_capacity = am.min_capacity := by
  rw [put_eq_cases]
  split
  · rfl
  · split
    · exact (resize_fields _ _).1
    · rfl

theorem put_factors (am : AllocationMap) (p s : Nat) (d : Option Nat) :
    (gc_allocation_map_put am p s d).downsize_factor = am.downsize_factor ∧
    (gc_allocation_map_put am p s d).upsize_factor = am.upsize_factor ∧
    (gc_allocation_map_put am p s d).sweep_factor = am.sweep_factor := by
  rw [put_eq_cases]
  split
  · exact ⟨rfl, rfl, rfl⟩
  · split
    · have h := resize_fields (putInsert am p s d)
        (next_prime ((putInsert am p s d).capacity * 2))
      exact ⟨h.2.2.1, h.2.2.2.1, h.2.2.2.2⟩
    · exact ⟨rfl, rfl, rfl⟩

/-! ## Effects of `gc_allocation_map_remove` -/

theorem countP_filter_ne (p : Nat) (l : List Allocation) :
    (l.filter (fun a => a.ptr ≠ p)).length +
      l.countP (fun a => a.ptr == p) = l.length := by
  induction l with
  | nil => rfl
  | cons a rest ih =>
    by_cases h : a.ptr = p
    · rw [List.filter_cons_of_neg (by simp [h]), List.countP_cons_of_pos _ _ (by simp [h]),
        List.length_cons]
      omega
    · rw [List.filter_cons_of_pos (by simp [h]), List.countP_cons_of_neg _ _ (by simp [h]),
        List.length_cons, List.length_cons]
      omega

theorem bucket_sublist_recs {am : AllocationMap} (hwf : WF am) (p : Nat) :
    (am.bucket p).Sublist am.recs := by
  have hip : bucketIndex am p < am.allocs.length := bucketIndex_lt_length hwf p
  have hdec := recs_decomp am (bucketIndex am p) hip
  refine List.IsInfix.sublist ⟨(am.allocs.take (bucketIndex am p)).flatten,
    (am.allocs.drop (bucketIndex am p + 1)).flatten, ?_⟩
  rw [hdec]
  rfl

theorem bucket_countP_eq {am : AllocationMap} (hwf : WF am) (p : Nat) :
    (am.bucket p).countP (fun a => a.ptr == p) =
      if (gc_allocation_map_get am p).isSome then 1 else 0 := by
  cases hget : gc_allocation_map_get am p with
  | none =>
    simp only [Option.isSome_none, Bool.false_eq_true, if_false]
    rw [List.countP_eq_zero]
    intro a ha
    have := (get_none_char hwf).1 hget a (bucket_subset_recs hwf p a ha)
    simpa using this
  | some a =>
    simp only [Option.isSome_some, if_true]
    have hmem : a ∈ am.bucket p ∧ a.ptr = p := by
      have h1 := List.mem_of_find?_eq_some hget
      have h2 := List.find?_some hget
      exact ⟨h1, by simpa using h2⟩
    have hnodup : ((am.bucket p).map (fun x => x.ptr)).Nodup :=
      ((bucket_sublist_recs hwf p).map _).nodup hwf.ptr_nodup
    rw [List.countP_eq_length_filter]
    cases hfl : (am.bucket p).filter (fun x => x.ptr == p) with
    | nil =>
      exfalso
      have : a ∈ (am.bucket p).filter (fun x => x.ptr == p) :=
        List.mem_filter.2 ⟨hmem.1, by simp [hmem.2]⟩
      rw [hfl] at this
      simp at this
    | cons x t =>
      cases t with
      | nil => rfl
      | cons y t2 =>
        exfalso
        have hx : x ∈ am.bucket p ∧ x.ptr = p := by
          have : x ∈ (am.bucket p).filter (fun x => x.ptr == p) := by rw [hfl]; simp
          have h2 := List.mem_filter.1 this
          exact ⟨h2.1, by simpa using h2.2⟩
        have hy : y ∈ am.bucket p ∧ y.ptr = p := by
          have : y ∈ (am.bucket p).filter (fun x => x.ptr == p) := by rw [hfl]; simp
          have h2 := List.mem_filter.1 this
          exact ⟨h2.1, by simpa using h2.2⟩
        have hfsub : ((am.bucket p).filter (fun x => x.ptr == p)).Sublist (am.bucket p) :=
          List.filter_sublist _
        have hfnodup : (((am.bucket p).filter (fun x => x.ptr == p)).map
            (fun x => x.ptr)).Nodup := (hfsub.map _).nodup hnodup
        rw [hfl] at hfnodup
        simp only [List.map_cons, List.nodup_cons] at hfnodup
        exact hfnodup.1 (by rw [hx.2, ← hy.2]; exact List.mem_cons_self _ _)

theorem removeCore_WF {am : AllocationMap} {p : Nat} (hwf : WF am) :
    WF (gc_allocation_map_removeCore am p) := by
  have hip : bucketIndex am p < am.allocs.length := bucketIndex_lt_length hwf p
  refine ⟨?_, hwf.capacity_pos, ?_, ?_, ?_⟩
  · show (am.allocs.set _ _).length = am.capacity
    rw [List.length_set]; exact hwf.length_allocs
  · intro j hj a ha
    show gc_hash a.ptr % am.capacity = j
    simp only [gc_allocation_map_removeCore, List.length_set] at hj
    simp only [gc_allocation_map_removeCore] at ha
    by_cases hji : j = bucketIndex am p
    · subst hji
      rw [getD_set_self _ _ _ _ hip] at ha
      exact hwf.bucket_correct _ hip a (List.mem_of_mem_filter ha)
    · rw [getD_set_ne _ _ _ _ _ fun e => hji e.symm] at ha
      exact hwf.bucket_correct j hj a ha
  · show (((am.allocs.set _ _).flatten).map _).Nodup
    rw [flatten_set _ _ _ hip]
    have hsub : ((am.allocs.take (bucketIndex am p)).flatten ++
        removeChain p (am.bucket p) ++
        (am.allocs.drop (bucketIndex am p + 1)).flatten).Sublist am.recs := by
      rw [recs_decomp am (bucketIndex am p) hip]
      exact ((List.Sublist.refl _).append (List.filter_sublist _)).append
        (List.Sublist.refl _)
    exact (hsub.map _).nodup hwf.ptr_nodup
  · show am.size - (am.bucket p).countP (fun a => a.ptr == p) =
      ((am.allocs.set _ _).flatten).length
    rw [flatten_set _ _ _ hip]
    have hlen := congrArg List.length (recs_decomp am (bucketIndex am p) hip)
    have hsz := hwf.size_eq
    have hcf := countP_filter_ne p (am.bucket p)
    simp only [List.length_append] at hlen ⊢
    show _ - _ = _ + (removeChain p (am.bucket p)).length + _
    unfold removeChain
    have hbg : am.allocs.getD (bucketIndex am p) [] = am.bucket p := rfl
    rw [hbg] at hlen
    omega

theorem removeCore_get {am : AllocationMap} {p : Nat} (hwf : WF am) (q : Nat) :
    gc_allocation_map_get (gc_allocation_map_removeCore am p) q =
      if q = p then none else gc_allocation_map_get am q := by
  have hip : bucketIndex am p < am.allocs.length := bucketIndex_lt_length hwf p
  by_cases hq : q = p
  · subst hq
    show (List.getD (am.allocs.set (bucketIndex am q) _) (bucketIndex am q) []).find? _ = _
    rw [getD_set_self _ _ _ _ hip, if_pos rfl]
    exact find?_removeChain_self q (am.bucket q)
  · by_cases hj : bucketIndex am q = bucketIndex am p
    · show (List.getD (am.allocs.set (bucketIndex am p) _) (bucketIndex am q) []).find? _ = _
      rw [hj, getD_set_self _ _ _ _ hip, if_neg hq, find?_removeChain_ne hq]
      show (am.bucket p).find? _ = (am.bucket q).find? _
      unfold AllocationMap.bucket
      rw [hj]
    · show (List.getD (am.allocs.set (bucketIndex am p) _) (bucketIndex am q) []).find? _ = _
      rw [getD_set_ne _ _ _ _ _ fun e => hj e.symm, if_neg hq]
      rfl

theorem removeCore_size {am : AllocationMap} {p : Nat} (hwf : WF am) :
    (gc_allocation_map_removeCore am p).size =
      am.size - (if (gc_allocation_map_get am p).isSome then 1 else 0) := by
  show am.size - (am.bucket p).countP (fun a => a.ptr == p) = _
  rw [bucket_countP_eq hwf]

theorem remove_eq (am : AllocationMap) (p : Nat) :
    gc_allocation_map_remove am p =
      if gc_allocation_map_load_factor (gc_allocation_map_removeCore am p) <
          (gc_allocation_map_removeCore am p).downsize_factor then
        gc_allocation_map_resize (gc_allocation_map_removeCore am p)
          (next_prime ((gc_allocation_map_removeCore am p).capacity / 2))
      else gc_allocation_map_removeCore am p := rfl

theorem remove_WF {am : AllocationMap} {p : Nat} (hwf : WF am) :
    WF (gc_allocation_map_remove am p) := by
  rw [remove_eq]
  split
  · exact resize_WF (removeCore_WF hwf)
      (Nat.lt_of_lt_of_le Nat.zero_lt_two (next_prime_two_le _))
  · exact removeCore_WF hwf

theorem remove_get {am : AllocationMap} {p : Nat} (hwf : WF am) (q : Nat) :
    gc_allocation_map_get (gc_allocation_map_remove am p) q =
      if q = p then none else gc_allocation_map_get am q := by
  rw [remove_eq]
  split
  · rw [resize_get (removeCore_WF hwf)
      (Nat.lt_of_lt_of_le Nat.zero_lt_two (next_prime_two_le _))]
    exact removeCore_get hwf q
  · exact removeCore_get hwf q

theorem remove_size {am : AllocationMap} {p : Nat} (hwf : WF am) :
    (gc_allocation_map_remove am p).size =
      am.size - (if (gc_allocation_map_get am p).isSome then 1 else 0) := by
  rw [remove_eq]
  split
  · rw [(resize_fields _ _).2.1]
    exact removeCore_size hwf
  · exact removeCore_size hwf

theorem remove_min_capacity (am : AllocationMap) (p : Nat) :
    (gc_allocation_map_remove am p).min_capacity = am.min_capacity := by
  rw [remove_eq]
  split
  · exact (resize_fields _ _).1
  · rfl

theorem remove_factors (am : AllocationMap) (p : Nat) :
    (gc_allocation_map_remove am p).downsize_factor = am.downsize_factor ∧
    (gc_allocation_map_remove am p).upsize_factor = am.upsize_factor ∧
    (gc_allocation_map_remove am p).sweep_factor = am.sweep_factor := by
  rw [remove_eq]
  split
  · have h := resize_fields (gc_allocation_map_removeCore am p)
      (next_prime ((gc_allocation_map_removeCore am p).capacity / 2))
    exact ⟨h.2.2.1, h.2.2.2.1, h.2.2.2.2⟩
  · exact ⟨rfl, rfl, rfl⟩

/-! ## `gc_allocation_map_new` and basic rational bridges -/

theorem getD_replicate_nil {α : Type} (n i : Nat) :
    (List.replicate n ([] : List α)).getD i [] = [] := by
  by_cases h : i < n
  · rw [List.getD_eq_getElem _ _ (by simpa using h)]
    simp
  · exact List.getD_eq_default _ _ (by simpa using Nat.le_of_not_lt h)

theorem new_min_capacity (mc c : Nat) (sf df uf : ℚ) :
    (gc_allocation_map_new mc c sf df uf).min_capacity = next_prime mc := rfl

theorem new_capacity (mc c : Nat) (sf df uf : ℚ) :
    (gc_allocation_map_new mc c sf df uf).capacity =
      if next_prime c < next_prime mc then next_prime mc else next_prime c := rfl

theorem new_capacity_prime (mc c : Nat) (sf df uf : ℚ) :
    Nat.Prime (gc_allocation_map_new mc c sf df uf).capacity := by
  rw [new_capacity]
  split
  · exact next_prime_prime mc
  · exact next_prime_prime c

theorem new_min_le_capacity (mc c : Nat) (sf df uf : ℚ) :
    (gc_allocation_map_new mc c sf df uf).min_capacity ≤
      (gc_allocation_map_new mc c sf df uf).capacity := by
  rw [new_capacity, new_min_capacity]
  split
  · exact Nat.le_refl _
  · omega

theorem new_WF (mc c : Nat) (sf df uf : ℚ) :
    WF (gc_allocation_map_new mc c sf df uf) := by
  have hpos : 0 < (gc_allocation_map_new mc c sf df uf).capacity :=
    (new_capacity_prime mc c sf df uf).pos
  refine ⟨?_, hpos, ?_, ?_, ?_⟩
  · exact List.length_replicate _ _
  · intro i hi a ha
    rw [show (gc_allocation_map_new mc c sf df uf).allocs =
      List.replicate (gc_allocation_map_new mc c sf df uf).capacity [] from rfl] at ha
    rw [getD_replicate_nil] at ha
    simp at ha
  · show ((List.replicate _ ([] : List Allocation)).flatten.map _).Nodup
    rw [List.flatten_replicate_nil]
    exact List.nodup_nil
  · show 0 = (List.replicate _ ([] : List Allocation)).flatten.length
    rw [List.flatten_replicate_nil]
    rfl

theorem resize_noop (am : AllocationMap) (n : Nat) (h : n ≤ am.min_capacity) :
    gc_allocation_map_resize am n = am := by
  unfold gc_allocation_map_resize
  rw [if_pos h]

theorem mkRat_le_one_imp {s c : Nat} (hc : 0 < c) (h : (mkRat s c : ℚ) ≤ 1) :
    s ≤ c := by
  rw [Rat.mkRat_eq_div] at h
  have hcq : (0 : ℚ) < (c : ℚ) := by exact_mod_cast hc
  rw [div_le_one hcq] at h
  exact_mod_cast h

theorem mkRat_lt_half_imp {s c : Nat} (hc : 0 < c)
    (h : (mkRat s c : ℚ) < mkRat 1 2) : 2 * s < c := by
  rw [Rat.mkRat_eq_div, Rat.mkRat_eq_div] at h
  have hcq : (0 : ℚ) < (c : ℚ) := by exact_mod_cast hc
  rw [div_lt_div_iff hcq (by norm_num)] at h
  have : (s : ℚ) * 2 < c := by push_cast at h ⊢; linarith
  have h2 : ((2 * s : Nat) : ℚ) < (c : ℚ) := by push_cast; linarith
  exact_mod_cast h2

/-! ## The registry invariant under operation sequences -/

/-- A public registry operation: `gc_allocation_map_put` or
`gc_allocation_map_remove` (`gc_allocation_map_resize` is `static` in the
source and is invoked only from these two, always with a `next_prime`
argument; `get` does not modify the registry). -/
inductive RegOp
  | put (p s : Nat) (d : Option Nat)
  | remove (p : Nat)
deriving Repr, DecidableEq

def applyRegOp (am : AllocationMap) : RegOp → AllocationMap
  | RegOp.put p s d => gc_allocation_map_put am p s d
  | RegOp.remove p => gc_allocation_map_remove am p

def applyRegOps (am : AllocationMap) (ops : List RegOp) : AllocationMap :=
  ops.foldl applyRegOp am

/-- The full registry invariant: structural well-formedness, a prime capacity
at least `min_capacity`, occupancy bounded by capacity, and the factor bounds
under which the occupancy bound is maintained. -/
def RegGood (am : AllocationMap) : Prop :=
  WF am ∧ Nat.Prime am.capacity ∧ am.min_capacity ≤ am.capacity ∧
    am.size ≤ am.capacity ∧ 2 ≤ am.min_capacity ∧
    am.downsize_factor ≤ mkRat 1 2 ∧ am.upsize_factor ≤ 1

theorem regGood_put {am : AllocationMap} (h : RegGood am) (p s : Nat)
    (d : Option Nat) : RegGood (gc_allocation_map_put am p s d) := by
  obtain ⟨hwf, hprime, hminle, hsle, hmin2, hdf, huf⟩ := h
  rw [put_eq_cases]
  by_cases hfound : (gc_allocation_map_get am p).isSome
  · rw [if_pos hfound]
    exact ⟨amUpdate_WF hwf (fun a _ => rfl), hprime, hminle, hsle, hmin2, hdf, huf⟩
  · rw [if_neg hfound]
    have habs : gc_allocation_map_get am p = none := by
      cases hg : gc_allocation_map_get am p
      · rfl
      · rw [hg] at hfound; simp at hfound
    have hwfi : WF (putInsert am p s d) := putInsert_WF hwf habs
    have hcapi : (putInsert am p s d).capacity = am.capacity := rfl
    have hsizei : (putInsert am p s d).size = am.size + 1 := rfl
    have hpos : 0 < am.capacity := hwf.capacity_pos
    split
    · have hge2 := next_prime_ge (am.capacity * 2)
      have hmini : (putInsert am p s d).min_capacity = am.min_capacity := rfl
      rw [hcapi]
      have hnple : ¬ next_prime (am.capacity * 2) ≤
          (putInsert am p s d).min_capacity := by
        rw [hmini]; omega
      have hnppos : 0 < next_prime (am.capacity * 2) :=
        Nat.lt_of_lt_of_le Nat.zero_lt_two (next_prime_two_le _)
      have hrc : (gc_allocation_map_resize (putInsert am p s d)
          (next_prime (am.capacity * 2))).capacity = next_prime (am.capacity * 2) := by
        rw [resize_capacity, if_neg hnple]
      have hrf := resize_fields (putInsert am p s d) (next_prime (am.capacity * 2))
      refine ⟨resize_WF hwfi hnppos, ?_, ?_, ?_, ?_, ?_, ?_⟩
      · rw [hrc]; exact next_prime_prime _
      · rw [hrc, hrf.1, hmini]; omega
      · rw [hrc, hrf.2.1, hsizei]; omega
      · rw [hrf.1, hmini]; exact hmin2
      · rw [hrf.2.2.1]; exact hdf
      · rw [hrf.2.2.2.1]; exact huf
    · next hload =>
      refine ⟨hwfi, hprime, hminle, ?_, hmin2, hdf, huf⟩
      rw [hcapi, hsizei]
      have h1 : gc_allocation_map_load_factor (putInsert am p s d) ≤
          (putInsert am p s d).upsize_factor := not_lt.1 hload
      have h2 : (mkRat (am.size + 1) am.capacity : ℚ) ≤ 1 := by
        refine le_trans ?_ huf
        simpa [gc_allocation_map_load_factor, hsizei, hcapi] using h1
      exact mkRat_le_one_imp hpos h2

theorem regGood_remove {am : AllocationMap} (h : RegGood am) (p : Nat) :
    RegGood (gc_allocation_map_remove am p) := by
  obtain ⟨hwf, hprime, hminle, hsle, hmin2, hdf, huf⟩ := h
  rw [remove_eq]
  have hwfc : WF (gc_allocation_map_removeCore am p) := removeCore_WF hwf
  have hcapc : (gc_allocation_map_removeCore am p).capacity = am.capacity := rfl
  have hminc : (gc_allocation_map_removeCore am p).min_capacity = am.min_capacity := rfl
  have hsizec : (gc_allocation_map_removeCore am p).size ≤ am.size := by
    show am.size - _ ≤ am.size
    omega
  have hcore : RegGood (gc_allocation_map_removeCore am p) :=
    ⟨hwfc, hprime, hminle, by omega, hmin2, hdf, huf⟩
  split
  · next hload =>
    rw [hcapc]
    by_cases hnp : next_prime (am.capacity / 2) ≤ am.min_capacity
    · rw [resize_noop _ _ (by rw [hminc]; exact hnp)]
      exact hcore
    · have hpos : 0 < am.capacity := hwf.capacity_pos
      have hnppos : 0 < next_prime (am.capacity / 2) :=
        Nat.lt_of_lt_of_le Nat.zero_lt_two (next_prime_two_le _)
      have hhalf : 2 * (gc_allocation_map_removeCore am p).size < am.capacity := by
        refine mkRat_lt_half_imp hpos ?_
        refine lt_of_lt_of_le ?_ hdf
        simpa [gc_allocation_map_load_factor, hcapc] using hload
      have hge := next_prime_ge (am.capacity / 2)
      have hnple : ¬ next_prime (am.capacity / 2) ≤
          (gc_allocation_map_removeCore am p).min_capacity := by
        rw [hminc]; exact hnp
      have hrc : (gc_allocation_map_resize (gc_allocation_map_removeCore am p)
          (next_prime (am.capacity / 2))).capacity = next_prime (am.capacity / 2) := by
        rw [resize_capacity, if_neg hnple]
      have hrf := resize_fields (gc_allocation_map_removeCore am p)
        (next_prime (am.capacity / 2))
      refine ⟨resize_WF hwfc hnppos, ?_, ?_, ?_, ?_, ?_, ?_⟩
      · rw [hrc]; exact next_prime_prime _
      · rw [hrc, hrf.1, hminc]; omega
      · rw [hrc, hrf.2.1]; omega
      · rw [hrf.1, hminc]; exact hmin2
      · rw [hrf.2.2.1]; exact hdf
      · rw [hrf.2.2.2.1]; exact huf
  · exact hcore

theorem regGood_applyRegOps {am : AllocationMap} (h : RegGood am)
    (ops : List RegOp) : RegGood (applyRegOps am ops) := by
  induction ops generalizing am with
  | nil => exact h
  | cons op rest ih =>
    show RegGood (applyRegOps (applyRegOp am op) rest)
    cases op with
    | put p s d => exact ih (regGood_put h p s d)
    | remove p => exact ih (regGood_remove h p)

theorem regGood_new (mc c : Nat) (sf df uf : ℚ) (hdf : df ≤ mkRat 1 2)
    (huf : uf ≤ 1) : RegGood (gc_allocation_map_new mc c sf df uf) :=
  ⟨new_WF mc c sf df uf, new_capacity_prime mc c sf df uf,
    new_min_le_capacity mc c sf df uf,
    by rw [show (gc_allocation_map_new mc c sf df uf).size = 0 from rfl]; omega,
    by rw [new_min_capacity]; exact next_prime_two_le mc, hdf, huf⟩

/-! ## Claim C8: put/get round trip and upsert idempotence -/

/-- **C8**: for every well-formed registry, after `put(p, s, d)` the lookup
`get(p)` returns a record with size `s` and finalizer `d`; and a second
identical `put` is an in-place upsert that leaves the registry's `size` field
at its value after the first call. -/
theorem c8_put_get_upsert (am : AllocationMap) (p s : Nat) (d : Option Nat)
    (hwf : WF am) :
    (∃ a, gc_allocation_map_get (gc_allocation_map_put am p s d) p = some a ∧
        a.size = s ∧ a.dtor = d) ∧
    (gc_allocation_map_put (gc_allocation_map_put am p s d) p s d).size =
      (gc_allocation_map_put am p s d).size := by
  have h1 : gc_allocation_map_get (gc_allocation_map_put am p s d) p =
      if p = p then some (gc_allocation_new p s d)
      else gc_allocation_map_get am p := put_get hwf p
  rw [if_pos rfl] at h1
  refine ⟨⟨gc_allocation_new p s d, h1, rfl, rfl⟩, ?_⟩
  rw [put_size, if_pos (by rw [h1]; rfl)]

/-- A small concrete well-formed registry used to instantiate claim C8. -/
def amW1 : AllocationMap :=
  ⟨2, 2, mkRat 1 5, mkRat 4 5, mkRat 1 2, 1, 1,
    [[], [⟨8, 16, ⟨false, false⟩, some 7⟩]]⟩

theorem c8_witness :
    WF amW1 ∧
    ((∃ a, gc_allocation_map_get (gc_allocation_map_put amW1 24 5 (some 3)) 24 =
        some a ∧ a.size = 5 ∧ a.dtor = some 3) ∧
    (gc_allocation_map_put (gc_allocation_map_put amW1 24 5 (some 3)) 24 5 (some 3)).size =
      (gc_allocation_map_put amW1 24 5 (some 3)).size) :=
  ⟨by decide, c8_put_get_upsert amW1 24 5 (some 3) (by decide)⟩

/-! ## Claim C7: the downsize policy of `remove` and `resize` -/

/-- **C7** (amended): after a `remove`, if the load factor is below
`downsize_factor` and `next_prime(capacity / 2)` is *strictly greater than*
`min_capacity`, the registry is resized to `next_prime(capacity / 2)`; a
downsize request whose target does not exceed `min_capacity` (in particular
any request that would take the capacity below the minimum, and the case of a
registry already at its minimum) is a no-op that leaves the capacity and the
bucket array unchanged.  (The source test is `new_capacity <= min_capacity`,
so a request of exactly `min_capacity` is also a no-op; the original claim's
`≥` boundary is refuted by `c7_counterexample`.) -/
theorem c7_downsize_policy (am : AllocationMap) (p : Nat) :
    (gc_allocation_map_load_factor (gc_allocation_map_removeCore am p) <
        am.downsize_factor →
      (am.min_capacity < next_prime (am.capacity / 2) →
        (gc_allocation_map_remove am p).capacity = next_prime (am.capacity / 2)) ∧
      (next_prime (am.capacity / 2) ≤ am.min_capacity →
        gc_allocation_map_remove am p = gc_allocation_map_removeCore am p)) ∧
    (¬ gc_allocation_map_load_factor (gc_allocation_map_removeCore am p) <
        am.downsize_factor →
      gc_allocation_map_remove am p = gc_allocation_map_removeCore am p) ∧
    (∀ n, n < am.min_capacity → gc_allocation_map_resize am n = am) := by
  have hcapc : (gc_allocation_map_removeCore am p).capacity = am.capacity := rfl
  have hminc : (gc_allocation_map_removeCore am p).min_capacity =
    am.min_capacity := rfl
  refine ⟨fun hload => ?_, fun hload => ?_,
    fun n hn => resize_noop am n (Nat.le_of_lt hn)⟩
  · have hload' : gc_allocation_map_load_factor (gc_allocation_map_removeCore am p) <
        (gc_allocation_map_removeCore am p).downsize_factor := hload
    refine ⟨fun hmin => ?_, fun hnp => ?_⟩
    · rw [remove_eq, if_pos hload', resize_capacity, hcapc, hminc,
        if_neg (Nat.not_le.2 hmin)]
    · rw [remove_eq, if_pos hload']
      exact resize_noop _ _ (by rw [hcapc, hminc]; exact hnp)
  · have hload' : ¬ gc_allocation_map_load_factor (gc_allocation_map_removeCore am p) <
        (gc_allocation_map_removeCore am p).downsize_factor := hload
    rw [remove_eq, if_neg hload']

/-- The registry of `c7_witness`: `min_capacity = 5`, `capacity = 23`. -/
def amC7w : AllocationMap :=
  gc_allocation_map_new 5 23 (mkRat 1 2) (mkRat 1 5) (mkRat 4 5)

theorem c7_witness :
    gc_allocation_map_load_factor (gc_allocation_map_removeCore amC7w 100) <
      amC7w.downsize_factor ∧
    amC7w.min_capacity < next_prime (amC7w.capacity / 2) ∧
    (gc_allocation_map_remove amC7w 100).capacity =
      next_prime (amC7w.capacity / 2) :=
  ⟨by decide, by decide,
    ((c7_downsize_policy amC7w 100).1 (by decide)).1 (by decide)⟩

/-- The registry refuting claim C7 as stated: `min_capacity = 11`,
`capacity = 23`, so `next_prime(capacity / 2) = 11 ≥ min_capacity`, yet the
downsize request `resize(11)` is a no-op because the source tests
`new_capacity <= min_capacity`. -/
def amC7x : AllocationMap :=
  gc_allocation_map_new 11 23 (mkRat 1 2) (mkRat 1 5) (mkRat 4 5)

theorem c7_counterexample :
    gc_allocation_map_load_factor (gc_allocation_map_removeCore amC7x 100) <
      amC7x.downsize_factor ∧
    amC7x.min_capacity ≤ next_prime (amC7x.capacity / 2) ∧
    (gc_allocation_map_remove amC7x 100).capacity ≠
      next_prime (amC7x.capacity / 2) := by
  refine ⟨by decide, by decide, ?_⟩
  decide

/-! ## Claim C5: registry invariants under operation sequences -/

/-- **C5** (amended): for every sequence of `put` and `remove` operations on
a freshly created registry whose configured factors satisfy
`downsize_factor ≤ 1/2` and `upsize_factor ≤ 1` (the defaults 0.2 and 0.8
do), the resulting registry keeps every record in the bucket selected by its
hash, has pairwise distinct record pointers, keeps `size` equal to the number
of records reachable from the bucket array, keeps `size ≤ capacity`, and has
a prime capacity that is at least `min_capacity`.  (Without the factor bounds
the occupancy bound `size ≤ capacity` fails: see `c5_counterexample`.) -/
theorem c5_registry_invariants (mc c : Nat) (sf df uf : ℚ)
    (hdf : df ≤ mkRat 1 2) (huf : uf ≤ 1) (ops : List RegOp) :
    (∀ i < (applyRegOps (gc_allocation_map_new mc c sf df uf) ops).allocs.length,
      ∀ a ∈ (applyRegOps (gc_allocation_map_new mc c sf df uf) ops).allocs.getD i [],
        gc_hash a.ptr %
          (applyRegOps (gc_allocation_map_new mc c sf df uf) ops).capacity = i) ∧
    ((applyRegOps (gc_allocation_map_new mc c sf df uf) ops).recs.map
      (fun a => a.ptr)).Nodup ∧
    (applyRegOps (gc_allocation_map_new mc c sf df uf) ops).size =
      (applyRegOps (gc_allocation_map_new mc c sf df uf) ops).recs.length ∧
    (applyRegOps (gc_allocation_map_new mc c sf df uf) ops).size ≤
      (applyRegOps (gc_allocation_map_new mc c sf df uf) ops).capacity ∧
    Nat.Prime (applyRegOps (gc_allocation_map_new mc c sf df uf) ops).capacity ∧
    (applyRegOps (gc_allocation_map_new mc c sf df uf) ops).min_capacity ≤
      (applyRegOps (gc_allocation_map_new mc c sf df uf) ops).capacity := by
  obtain ⟨hwf, hp, hm, hs, _, _, _⟩ :=
    regGood_applyRegOps (regGood_new mc c sf df uf hdf huf) ops
  exact ⟨hwf.bucket_correct, hwf.ptr_nodup, hwf.size_eq, hs, hp, hm⟩

theorem c5_witness :
    (mkRat 1 5 ≤ mkRat 1 2) ∧ ((mkRat 4 5 : ℚ) ≤ 1) ∧
    ((∀ i < (applyRegOps (gc_allocation_map_new 2 2 (mkRat 1 2) (mkRat 1 5) (mkRat 4 5))
        [RegOp.put 0 1 none, RegOp.put 8 1 none, RegOp.remove 0]).allocs.length,
      ∀ a ∈ (applyRegOps (gc_allocation_map_new 2 2 (mkRat 1 2) (mkRat 1 5) (mkRat 4 5))
        [RegOp.put 0 1 none, RegOp.put 8 1 none, RegOp.remove 0]).allocs.getD i [],
        gc_hash a.ptr %
          (applyRegOps (gc_allocation_map_new 2 2 (mkRat 1 2) (mkRat 1 5) (mkRat 4 5))
            [RegOp.put 0 1 none, RegOp.put 8 1 none, RegOp.remove 0]).capacity = i) ∧
    ((applyRegOps (gc_allocation_map_new 2 2 (mkRat 1 2) (mkRat 1 5) (mkRat 4 5))
        [RegOp.put 0 1 none, RegOp.put 8 1 none, RegOp.remove 0]).recs.map
      (fun a => a.ptr)).Nodup ∧
    (applyRegOps (gc_allocation_map_new 2 2 (mkRat 1 2) (mkRat 1 5) (mkRat 4 5))
        [RegOp.put 0 1 none, RegOp.put 8 1 none, RegOp.remove 0]).size =
      (applyRegOps (gc_allocation_map_new 2 2 (mkRat 1 2) (mkRat 1 5) (mkRat 4 5))
        [RegOp.put 0 1 none, RegOp.put 8 1 none, RegOp.remove 0]).recs.length ∧
    (applyRegOps (gc_allocation_map_new 2 2 (mkRat 1 2) (mkRat 1 5) (mkRat 4 5))
        [RegOp.put 0 1 none, RegOp.put 8 1 none, RegOp.remove 0]).size ≤
      (applyRegOps (gc_allocation_map_new 2 2 (mkRat 1 2) (mkRat 1 5) (mkRat 4 5))
        [RegOp.put 0 1 none, RegOp.put 8 1 none, RegOp.remove 0]).capacity ∧
    Nat.Prime (applyRegOps (gc_allocation_map_new 2 2 (mkRat 1 2) (mkRat 1 5) (mkRat 4 5))
        [RegOp.put 0 1 none, RegOp.put 8 1 none, RegOp.remove 0]).capacity ∧
    (applyRegOps (gc_allocation_map_new 2 2 (mkRat 1 2) (mkRat 1 5) (mkRat 4 5))
        [RegOp.put 0 1 none, RegOp.put 8 1 none, RegOp.remove 0]).min_capacity ≤
      (applyRegOps (gc_allocation_map_new 2 2 (mkRat 1 2) (mkRat 1 5) (mkRat 4 5))
        [RegOp.put 0 1 none, RegOp.put 8 1 none, RegOp.remove 0]).capacity) :=
  ⟨by decide, by decide,
    c5_registry_invariants 2 2 (mkRat 1 2) (mkRat 1 5) (mkRat 4 5)
      (by decide) (by decide)
      [RegOp.put 0 1 none, RegOp.put 8 1 none, RegOp.remove 0]⟩

/-- Claim C5 as stated is violated for a legal configuration with
`upsize_factor = 5`: three inserts into a capacity-2 registry never cross the
load threshold, so `size = 3 > 2 = capacity`. -/
theorem c5_counterexample :
    (applyRegOps (gc_allocation_map_new 2 2 (mkRat 1 2) (mkRat 1 5) (mkRat 5 1))
      [RegOp.put 0 1 none, RegOp.put 8 1 none, RegOp.put 16 1 none]).capacity <
    (applyRegOps (gc_allocation_map_new 2 2 (mkRat 1 2) (mkRat 1 5) (mkRat 5 1))
      [RegOp.put 0 1 none, RegOp.put 8 1 none, RegOp.put 16 1 none]).size := by
  decide

/-! ## Claim C10: `gc_realloc` never collects -/

/-- **C10**: `gc_realloc` performs no collection on any path.  Concretely:
(1) when the system reallocator fails (`realloc` returns NULL) on a null or
registered pointer, the call returns NULL with the collector state unchanged
and no errno stored by the collector; (2) on *every* path, every record other
than `p` (and other than a fresh system address) survives untouched — nothing
is swept; (3) the fresh-allocation case `p = NULL` registers the new pointer
with no finalizer and no retry logic; (4) the collector stores an errno
(`EINVAL`) exactly on the unknown-pointer path, and stores nothing otherwise. -/
theorem c10_realloc_never_collects (gc : GarbageCollector) (p s : Nat)
    (hwf : WF gc.allocs) :
    ((p = 0 ∨ (gc_allocation_map_get gc.allocs p).isSome) →
      gc_realloc gc p s none = (none, gc, none)) ∧
    (∀ sys : Option Nat, ∀ q b, q ≠ p → (∀ qq, sys = some qq → q ≠ qq) →
      gc_allocation_map_get gc.allocs q = some b →
      gc_allocation_map_get (gc_realloc gc p s sys).2.1.allocs q = some b) ∧
    (∀ qq : Nat, p = 0 →
      (gc_realloc gc p s (some qq)).1 = some qq ∧
      gc_allocation_map_get (gc_realloc gc p s (some qq)).2.1.allocs qq =
        some (gc_allocation_new qq s none) ∧
      (gc_realloc gc p s (some qq)).2.2 = none) ∧
    (∀ sys : Option Nat,
      ((gc_realloc gc p s sys).2.2 = some EINVAL ↔
        (p ≠ 0 ∧ gc_allocation_map_get gc.allocs p = none)) ∧
      ((gc_realloc gc p s sys).2.2 = some EINVAL ∨
        (gc_realloc gc p s sys).2.2 = none)) := by
  refine ⟨?_, ?_, ?_, ?_⟩
  · intro hp
    cases hget : gc_allocation_map_get gc.allocs p with
    | none =>
      have hp0 : p = 0 := by
        rcases hp with h | h
        · exact h
        · rw [hget] at h; simp at h
      subst hp0
      simp [gc_realloc, hget]
    | some a => simp [gc_realloc, hget]
  · intro sys q b hqp hqs hgq
    cases hget : gc_allocation_map_get gc.allocs p with
    | none =>
      by_cases hp0 : p = 0
      · subst hp0
        cases sys with
        | none => simpa [gc_realloc, hget] using hgq
        | some qq =>
          have hqq := hqs qq rfl
          simp only [gc_realloc, hget]
          rw [if_neg (fun h : (0 : Nat) ≠ 0 => h rfl)]
          show gc_allocation_map_get (gc_allocation_map_put gc.allocs qq s none) q = some b
          rw [put_get hwf q, if_neg hqq]
          exact hgq
      · simpa [gc_realloc, hget, hp0] using hgq
    | some alloc =>
      cases sys with
      | none => simpa [gc_realloc, hget] using hgq
      | some qq =>
        by_cases hp0 : p = 0
        · subst hp0
          have hqq := hqs qq rfl
          simp only [gc_realloc, hget]
          rw [if_pos (by trivial)]
          show gc_allocation_map_get (gc_allocation_map_put gc.allocs qq s none) q = some b
          rw [put_get hwf q, if_neg hqq]
          exact hgq
        · by_cases hpq : p = qq
          · subst hpq
            simp only [gc_realloc, hget]
            rw [if_neg hp0]
            rw [if_pos (by trivial)]
            show gc_allocation_map_get
              (amUpdate gc.allocs p (fun a => { a with size := s })) q = some b
            have hupd : ∀ q2 : Nat,
                gc_allocation_map_get (amUpdate gc.allocs p
                  (fun a => { a with size := s })) q2 =
                if q2 = p then (gc_allocation_map_get gc.allocs p).map
                  (fun a => { a with size := s })
                else gc_allocation_map_get gc.allocs q2 :=
              amUpdate_get hwf (fun a ha => ha)
            rw [hupd q, if_neg hqp]
            exact hgq
          · simp only [gc_realloc, hget]
            rw [if_neg hp0, if_neg hpq]
            show gc_allocation_map_get (gc_allocation_map_put
              (gc_allocation_map_remove gc.allocs p) p s alloc.dtor) q = some b
            rw [put_get (remove_WF hwf) q, if_neg hqp, remove_get hwf q, if_neg hqp]
            exact hgq
  · intro qq hp0
    subst hp0
    cases hget : gc_allocation_map_get gc.allocs 0 with
    | none =>
      refine ⟨by simp [gc_realloc, hget], ?_, by simp [gc_realloc, hget]⟩
      simp only [gc_realloc, hget]
      rw [if_neg (fun h : (0 : Nat) ≠ 0 => h rfl)]
      show gc_allocation_map_get (gc_allocation_map_put gc.allocs qq s none) qq = _
      rw [put_get hwf qq, if_pos rfl]
    | some alloc =>
      refine ⟨by simp [gc_realloc, hget], ?_, by simp [gc_realloc, hget]⟩
      simp only [gc_realloc, hget]
      rw [if_pos (by trivial)]
      show gc_allocation_map_get (gc_allocation_map_put gc.allocs qq s none) qq = _
      rw [put_get hwf qq, if_pos rfl]
  · intro sys
    cases hget : gc_allocation_map_get gc.allocs p with
    | none =>
      by_cases hp0 : p = 0
      · subst hp0
        cases sys with
        | none => simp [gc_realloc, hget, EINVAL]
        | some qq => simp [gc_realloc, hget, EINVAL]
      · simp [gc_realloc, hget, hp0, EINVAL]
    | some alloc =>
      cases sys with
      | none => simp [gc_realloc, hget]
      | some qq =>
        by_cases hp0 : p = 0
        · subst hp0
          simp [gc_realloc, hget]
        · by_cases hpq : p = qq
          · subst hpq
            simp [gc_realloc, hget, hp0]
          · simp [gc_realloc, hget, hp0, hpq]

theorem c10_witness :
    WF amW1 ∧
    ((((8 : Nat) = 0 ∨ (gc_allocation_map_get amW1 8).isSome) →
      gc_realloc ⟨false, 0, amW1⟩ 8 24 none = (none, ⟨false, 0, amW1⟩, none)) ∧
    (∀ sys : Option Nat, ∀ q b, q ≠ 8 → (∀ qq, sys = some qq → q ≠ qq) →
      gc_allocation_map_get amW1 q = some b →
      gc_allocation_map_get (gc_realloc ⟨false, 0, amW1⟩ 8 24 sys).2.1.allocs q = some b) ∧
    (∀ qq : Nat, (8 : Nat) = 0 →
      (gc_realloc ⟨false, 0, amW1⟩ 8 24 (some qq)).1 = some qq ∧
      gc_allocation_map_get (gc_realloc ⟨false, 0, amW1⟩ 8 24 (some qq)).2.1.allocs qq =
        some (gc_allocation_new qq 24 none) ∧
      (gc_realloc ⟨false, 0, amW1⟩ 8 24 (some qq)).2.2 = none) ∧
    (∀ sys : Option Nat,
      ((gc_realloc ⟨false, 0, amW1⟩ 8 24 sys).2.2 = some EINVAL ↔
        ((8 : Nat) ≠ 0 ∧ gc_allocation_map_get amW1 8 = none)) ∧
      ((gc_realloc ⟨false, 0, amW1⟩ 8 24 sys).2.2 = some EINVAL ∨
        (gc_realloc ⟨false, 0, amW1⟩ 8 24 sys).2.2 = none))) :=
  ⟨by decide, c10_realloc_never_collects ⟨false, 0, amW1⟩ 8 24 (by decide)⟩

/-! ## Claim C1: realloc to a moved address -/

/-- **C1** is violated by the code (a bug the spec itself flags in §9): after
a successful moved reallocation `realloc(8, 32)` returning the new address
`40`, the record is re-registered under the *old* key `8` — `get(40)` is
absent and `get(8)` holds the new size (the finalizer is carried over, but
onto the stale key). -/
theorem c1_realloc_moved_keeps_old_key :
    (gc_realloc ⟨false, 0, amW1⟩ 8 32 (some 40)).1 = some 40 ∧
    gc_allocation_map_get (gc_realloc ⟨false, 0, amW1⟩ 8 32 (some 40)).2.1.allocs 40 =
      none ∧
    gc_allocation_map_get (gc_realloc ⟨false, 0, amW1⟩ 8 32 (some 40)).2.1.allocs 8 =
      some ⟨8, 32, ⟨false, false⟩, some 7⟩ := by
  decide

/-! ## Claim C3: `paused` and the allocation path -/

/-- A registry holding one unreachable allocation, with `sweep_limit = 0` so
that the next registration crosses the limit. -/
def amC3 : AllocationMap :=
  ⟨3, 3, mkRat 1 5, mkRat 4 5, mkRat 1 100, 0, 1,
    [[], [⟨8, 8, ⟨false, false⟩, none⟩], []]⟩

/-- **C3** is violated by the code: `gc_allocate` never reads `gc->paused`
(the flag is only ever written, by `gc_pause`/`gc_resume`), so a `gc_malloc`
on a paused collector still runs the sweep-limit collection: with an empty
stack and no roots, the pre-existing allocation at `8` (and the fresh one at
`16`) are swept even though `paused = true`. -/
theorem c3_paused_allocation_still_collects :
    (⟨true, 0, amC3⟩ : GarbageCollector).paused = true ∧
    amC3.size > amC3.sweep_limit ∧
    gc_allocation_map_get amC3 8 = some ⟨8, 8, ⟨false, false⟩, none⟩ ∧
    (gc_malloc (fun _ => 0) 0 ⟨true, 0, amC3⟩ (some 16) none false 8).1 = some 16 ∧
    gc_allocation_map_get
      (gc_malloc (fun _ => 0) 0 ⟨true, 0, amC3⟩ (some 16) none false 8).2.allocs 8 =
      none ∧
    (gc_malloc (fun _ => 0) 0 ⟨true, 0, amC3⟩ (some 16) none false 8).2.allocs.size = 0 := by
  decide

/-! ## Claim C6: the sweep traversal reads freed nodes -/

/-- A bookkeeping-node access performed by `gc_sweep`'s inner chain loop:
either the node of a record is freed (`gc_allocation_map_remove` reaches
`gc_allocation_delete`), or a field of the node is read (`chunk = chunk->next`). -/
inductive SweepAccess
  | freeNode (ptr : Nat)
  | readNext (ptr : Nat)
deriving Repr, DecidableEq

/-- The sequence of node accesses of `gc_sweep`'s inner loop on one chain,
read directly off the source: for each `chunk`, the unmarked branch finalizes
and frees the client region and then removes the record — freeing its node —
and in *both* branches the loop footer executes `chunk = chunk->next`,
reading the `next` field of that same node afterwards. -/
def gc_sweep_chain_accesses : List Allocation → List SweepAccess
  | [] => []
  | chunk :: rest =>
    (if chunk.tag.mark then [] else [SweepAccess.freeNode chunk.ptr]) ++
      (SweepAccess.readNext chunk.ptr :: gc_sweep_chain_accesses rest)

/-- Does an access sequence read a field of a node that was freed earlier in
the sequence? -/
def readsFreedNodeAux (freed : List Nat) : List SweepAccess → Bool
  | [] => false
  | SweepAccess.freeNode p :: rest => readsFreedNodeAux (p :: freed) rest
  | SweepAccess.readNext p :: rest => freed.contains p || readsFreedNodeAux freed rest

def readsFreedNode (l : List SweepAccess) : Bool := readsFreedNodeAux [] l

/-- **C6** is violated by the code: sweeping a chain holding a surviving
(marked) record followed by an unmarked record reads `chunk->next` from the
unmarked record's node *after* `gc_allocation_map_remove` freed that node —
the source advances with `chunk = chunk->next` after the removal instead of
capturing the successor beforehand. -/
theorem c6_sweep_reads_freed_node :
    readsFreedNode (gc_sweep_chain_accesses
      [⟨8, 4, ⟨false, true⟩, none⟩, ⟨16, 4, ⟨false, false⟩, some 7⟩]) = true := by
  decide

/-! ## The marking order: marking only sets MARK bits -/

/-- Record `b` is record `a` with possibly a newly set MARK bit: pointer,
size, finalizer and ROOT bit agree, and MARK only grows. -/
def MarkLe (a b : Allocation) : Prop :=
  b.ptr = a.ptr ∧ b.size = a.size ∧ b.dtor = a.dtor ∧ b.tag.root = a.tag.root ∧
    (a.tag.mark = true → b.tag.mark = true)

/-- Registry `am'` is registry `am` after some marking: all scalar fields
agree and the bucket structure is unchanged except for MARK bits that may
have been set. -/
def AMLe (am am' : AllocationMap) : Prop :=
  am'.capacity = am.capacity ∧ List.Forall₂ (List.Forall₂ MarkLe) am.allocs am'.allocs

theorem markLe_refl (a : Allocation) : MarkLe a a :=
  ⟨rfl, rfl, rfl, rfl, fun h => h⟩

theorem markLe_trans {a b c : Allocation} (h1 : MarkLe a b) (h2 : MarkLe b c) :
    MarkLe a c :=
  ⟨h2.1.trans h1.1, h2.2.1.trans h1.2.1, h2.2.2.1.trans h1.2.2.1,
    h2.2.2.2.1.trans h1.2.2.2.1, fun h => h2.2.2.2.2 (h1.2.2.2.2 h)⟩

theorem forall₂_markLe_refl (l : List Allocation) : List.Forall₂ MarkLe l l := by
  induction l with
  | nil => exact List.Forall₂.nil
  | cons a rest ih => exact List.Forall₂.cons (markLe_refl a) ih

theorem amLe_refl (am : AllocationMap) : AMLe am am := by
  refine ⟨rfl, ?_⟩
  induction am.allocs with
  | nil => exact List.Forall₂.nil
  | cons l rest ih => exact List.Forall₂.cons (forall₂_markLe_refl l) ih

theorem forall₂_trans {α : Type} {R : α → α → Prop}
    (hR : ∀ a b c, R a b → R b c → R a c) :
    ∀ {l₁ l₂ l₃ : List α}, List.Forall₂ R l₁ l₂ → List.Forall₂ R l₂ l₃ →
      List.Forall₂ R l₁ l₃ := by
  intro l₁ l₂ l₃ h1 h2
  induction h1 generalizing l₃ with
  | nil => cases h2; exact List.Forall₂.nil
  | cons hab hrest ih =>
    cases h2 with
    | cons hbc hrest2 => exact List.Forall₂.cons (hR _ _ _ hab hbc) (ih hrest2)

theorem amLe_trans {am₁ am₂ am₃ : AllocationMap} (h1 : AMLe am₁ am₂)
    (h2 : AMLe am₂ am₃) : AMLe am₁ am₃ := by
  refine ⟨h2.1.trans h1.1, forall₂_trans ?_ h1.2 h2.2⟩
  intro a b c hab hbc
  exact forall₂_trans
    (fun x y z (hx : MarkLe x y) (hy : MarkLe y z) => markLe_trans hx hy) hab hbc

theorem forall₂_getD {α : Type} {R : α → α → Prop} :
    ∀ {L L' : List (List α)}, List.Forall₂ (List.Forall₂ R) L L' → ∀ i,
      List.Forall₂ R (L.getD i []) (L'.getD i []) := by
  intro L L' h
  induction h with
  | nil => intro i; exact List.Forall₂.nil
  | cons hl hrest ih =>
    intro i
    cases i with
    | zero => simpa [List.getD] using hl
    | succ j => simpa [List.getD] using ih j

theorem forall₂_find?_ptr {l l' : List Allocation}
    (h : List.Forall₂ MarkLe l l') (q : Nat) :
    (l.find? (fun a => a.ptr == q) = none ∧
      l'.find? (fun a => a.ptr == q) = none) ∨
    (∃ a b, l.find? (fun a => a.ptr == q) = some a ∧
      l'.find? (fun a => a.ptr == q) = some b ∧ MarkLe a b) := by
  induction h with
  | nil => left; exact ⟨rfl, rfl⟩
  | cons hab hrest ih =>
    next a b l₂ l₂' =>
    by_cases hq : a.ptr = q
    · right
      refine ⟨a, b, ?_, ?_, hab⟩
      · rw [List.find?_cons_of_pos _ (by simp [hq])]
      · rw [List.find?_cons_of_pos _ (by simp [hab.1, hq])]
    · have hb : b.ptr ≠ q := by rw [hab.1]; exact hq
      rcases ih with ⟨h1, h2⟩ | ⟨x, y, h1, h2, h3⟩
      · left
        exact ⟨by rw [List.find?_cons_of_neg _ (by simp [hq])]; exact h1,
          by rw [List.find?_cons_of_neg _ (by simp [hb])]; exact h2⟩
      · right
        exact ⟨x, y, by rw [List.find?_cons_of_neg _ (by simp [hq])]; exact h1,
          by rw [List.find?_cons_of_neg _ (by simp [hb])]; exact h2, h3⟩

theorem amLe_get {am am' : AllocationMap} (h : AMLe am am') (q : Nat) :
    (gc_allocation_map_get am q = none ∧ gc_allocation_map_get am' q = none) ∨
    (∃ a b, gc_allocation_map_get am q = some a ∧
      gc_allocation_map_get am' q = some b ∧ MarkLe a b) := by
  have hbi : bucketIndex am' q = bucketIndex am q := by
    unfold bucketIndex; rw [h.1]
  have hbucket : List.Forall₂ MarkLe (am.bucket q) (am'.bucket q) := by
    unfold AllocationMap.bucket
    rw [hbi]
    exact forall₂_getD h.2 (bucketIndex am q)
  exact forall₂_find?_ptr hbucket q

theorem amLe_get_some {am am' : AllocationMap} (h : AMLe am am') {q : Nat}
    {a : Allocation} (hget : gc_allocation_map_get am q = some a) :
    ∃ b, gc_allocation_map_get am' q = some b ∧ MarkLe a b := by
  rcases amLe_get h q with ⟨h1, _⟩ | ⟨x, b, h1, h2, h3⟩
  · rw [hget] at h1; exact Option.noConfusion h1
  · rw [hget] at h1
    obtain rfl : x = a := by injection h1 |>.symm
    exact ⟨b, h2, h3⟩

theorem amLe_get_some_rev {am am' : AllocationMap} (h : AMLe am am') {q : Nat}
    {b : Allocation} (hget : gc_allocation_map_get am' q = some b) :
    ∃ a, gc_allocation_map_get am q = some a ∧ MarkLe a b := by
  rcases amLe_get h q with ⟨_, h2⟩ | ⟨a, y, h1, h2, h3⟩
  · rw [hget] at h2; exact Option.noConfusion h2
  · rw [hget] at h2
    obtain rfl : y = b := (Option.some_inj.1 h2).symm
    exact ⟨a, h1, h3⟩

theorem amLe_get_none {am am' : AllocationMap} (h : AMLe am am') {q : Nat}
    (hget : gc_allocation_map_get am q = none) :
    gc_allocation_map_get am' q = none := by
  rcases amLe_get h q with ⟨_, h2⟩ | ⟨a, y, h1, _, _⟩
  · exact h2
  · rw [hget] at h1; exact Option.noConfusion h1

/-! ## Marking and the record counts -/

theorem forall₂_flatten {α : Type} {R : α → α → Prop}
    {L L' : List (List α)} (h : List.Forall₂ (List.Forall₂ R) L L') :
    List.Forall₂ R L.flatten L'.flatten :=
  List.rel_flatten h

theorem forall₂_countP_le {l l' : List Allocation}
    (h : List.Forall₂ MarkLe l l') :
    l'.countP (fun a => !a.tag.mark) ≤ l.countP (fun a => !a.tag.mark) := by
  induction h with
  | nil => exact Nat.le_refl _
  | cons hab hrest ih =>
    next a b l₂ l₂' =>
    rw [List.countP_cons, List.countP_cons]
    by_cases ha : a.tag.mark = true
    · have hb := hab.2.2.2.2 ha
      simp only [ha, hb]
      simpa using ih
    · have ha2 : a.tag.mark = false := by
        revert ha; cases a.tag.mark <;> simp
      have h1 : (if (!b.tag.mark) = true then 1 else 0) ≤ 1 := by
        split <;> omega
      simp only [ha2]
      have h2 : (if (!false) = true then 1 else 0) = 1 := by simp
      rw [h2]
      omega

theorem unmarkedCount_eq_countP (am : AllocationMap) :
    unmarkedCount am = am.recs.countP (fun a => !a.tag.mark) := by
  unfold unmarkedCount
  rw [List.countP_eq_length_filter]

theorem amLe_countAllocs {am am' : AllocationMap} (h : AMLe am am') :
    countAllocs am' = countAllocs am := by
  unfold countAllocs AllocationMap.recs
  exact (List.Forall₂.length_eq (forall₂_flatten h.2)).symm

theorem amLe_unmarked_le {am am' : AllocationMap} (h : AMLe am am') :
    unmarkedCount am' ≤ unmarkedCount am := by
  rw [unmarkedCount_eq_countP, unmarkedCount_eq_countP]
  exact forall₂_countP_le (forall₂_flatten h.2)

theorem unmarked_le_countAllocs (am : AllocationMap) :
    unmarkedCount am ≤ countAllocs am :=
  List.length_filter_le _ _

theorem unmarked_pos {am : AllocationMap} {p : Nat} {a : Allocation}
    (hwf : WF am) (hget : gc_allocation_map_get am p = some a)
    (hm : a.tag.mark = false) : 1 ≤ unmarkedCount am := by
  have hmem : a ∈ am.recs := ((get_some_char hwf).1 hget).1
  rw [unmarkedCount_eq_countP]
  exact List.countP_pos.2 ⟨a, hmem, by simp [hm]⟩

theorem forall₂_chain_refl (L : List (List Allocation)) :
    List.Forall₂ (List.Forall₂ MarkLe) L L := by
  induction L with
  | nil => exact List.Forall₂.nil
  | cons l rest ih => exact List.Forall₂.cons (forall₂_markLe_refl l) ih

theorem forall₂_set_chain {L : List (List Allocation)} {i : Nat}
    {b : List Allocation} (hb : List.Forall₂ MarkLe (L.getD i []) b) :
    List.Forall₂ (List.Forall₂ MarkLe) L (L.set i b) := by
  induction L generalizing i with
  | nil => exact List.Forall₂.nil
  | cons l rest ih =>
    cases i with
    | zero =>
      exact List.Forall₂.cons (by simpa [List.getD] using hb) (forall₂_chain_refl rest)
    | succ j =>
      exact List.Forall₂.cons (forall₂_markLe_refl l)
        (ih (by simpa [List.getD] using hb))

theorem updateChain_setMark_markLe (p : Nat) (l : List Allocation) :
    List.Forall₂ MarkLe l (updateChain p setMark l) := by
  induction l with
  | nil => exact List.Forall₂.nil
  | cons a rest ih =>
    by_cases h : a.ptr = p
    · rw [updateChain, if_pos h]
      exact List.Forall₂.cons ⟨rfl, rfl, rfl, rfl, fun _ => rfl⟩
        (forall₂_markLe_refl rest)
    · rw [updateChain, if_neg h]
      exact List.Forall₂.cons (markLe_refl a) ih

theorem amUpdate_setMark_amLe (am : AllocationMap) (p : Nat) :
    AMLe am (amUpdate am p setMark) :=
  ⟨rfl, forall₂_set_chain (updateChain_setMark_markLe p (am.bucket p))⟩

theorem unmarked_setMark {am : AllocationMap} {p : Nat} {a : Allocation}
    (hwf : WF am) (hget : gc_allocation_map_get am p = some a)
    (hm : a.tag.mark = false) :
    unmarkedCount (amUpdate am p setMark) + 1 = unmarkedCount am := by
  have h := @amUpdate_countP am p setMark hwf (fun x => !x.tag.mark) a hget
  rw [unmarkedCount_eq_countP, unmarkedCount_eq_countP]
  simp only [hm, setMark, Bool.not_false, if_true] at h
  simp at h
  omega

/-! ## Fuel lemmas for the mark phase -/

theorem markListWith_nil (f : AllocationMap → Nat → AllocationMap)
    (am : AllocationMap) : markListWith f am [] = am := rfl

theorem markListWith_cons (f : AllocationMap → Nat → AllocationMap)
    (am : AllocationMap) (c : Nat) (cs : List Nat) :
    markListWith f am (c :: cs) = markListWith f (f am c) cs := rfl

theorem markListWith_mono {f : AllocationMap → Nat → AllocationMap}
    (hf : ∀ am p, WF am → WF (f am p) ∧ AMLe am (f am p)) :
    ∀ (cs : List Nat) (am : AllocationMap), WF am →
      WF (markListWith f am cs) ∧ AMLe am (markListWith f am cs) := by
  intro cs
  induction cs with
  | nil => intro am h; exact ⟨h, amLe_refl am⟩
  | cons c cs ih =>
    intro am h
    have h1 := hf am c h
    have h2 := ih (f am c) h1.1
    exact ⟨h2.1, amLe_trans h1.2 h2.2⟩

theorem gc_mark_alloc_mono (mem : Nat → Nat) :
    ∀ (fuel : Nat) (am : AllocationMap) (p : Nat), WF am →
      WF (gc_mark_alloc mem fuel am p) ∧ AMLe am (gc_mark_alloc mem fuel am p) := by
  intro fuel
  induction fuel with
  | zero => intro am p h; exact ⟨h, amLe_refl am⟩
  | succ fuel ih =>
    intro am p h
    cases hget : gc_allocation_map_get am p with
    | none =>
      have : gc_mark_alloc mem (fuel + 1) am p = am := by
        simp [gc_mark_alloc, hget]
      rw [this]
      exact ⟨h, amLe_refl am⟩
    | some a =>
      by_cases hm : a.tag.mark = true
      · have : gc_mark_alloc mem (fuel + 1) am p = am := by
          simp [gc_mark_alloc, hget, hm]
        rw [this]
        exact ⟨h, amLe_refl am⟩
      · have heq : gc_mark_alloc mem (fuel + 1) am p =
            markListWith (gc_mark_alloc mem fuel) (amUpdate am p setMark)
              (regionCandidates mem a) := by
          simp [gc_mark_alloc, hget, hm]
        rw [heq]
        have h1 : WF (amUpdate am p setMark) := amUpdate_WF h (fun _ ha => ha)
        have h2 := markListWith_mono (fun am2 p2 hw => ih am2 p2 hw)
          (regionCandidates mem a) _ h1
        exact ⟨h2.1, amLe_trans (amUpdate_setMark_amLe am p) h2.2⟩

theorem gc_mark_alloc_marks (mem : Nat → Nat) (fuel : Nat) (am : AllocationMap)
    (p : Nat) (a : Allocation) (hwf : WF am) (hfuel : unmarkedCount am ≤ fuel)
    (hget : gc_allocation_map_get am p = some a) :
    ∃ b, gc_allocation_map_get (gc_mark_alloc mem fuel am p) p = some b ∧
      b.tag.mark = true := by
  by_cases hm : a.tag.mark = true
  · cases fuel with
    | zero => exact ⟨a, hget, hm⟩
    | succ f =>
      have : gc_mark_alloc mem (f + 1) am p = am := by
        simp [gc_mark_alloc, hget, hm]
      rw [this]
      exact ⟨a, hget, hm⟩
  · have hm' : a.tag.mark = false := by revert hm; cases a.tag.mark <;> simp
    have hpos := unmarked_pos hwf hget hm'
    cases fuel with
    | zero => omega
    | succ f =>
      have heq : gc_mark_alloc mem (f + 1) am p =
          markListWith (gc_mark_alloc mem f) (amUpdate am p setMark)
            (regionCandidates mem a) := by
        simp [gc_mark_alloc, hget, hm']
      rw [heq]
      have hwf1 : WF (amUpdate am p setMark) := amUpdate_WF hwf (fun _ ha => ha)
      have hupd : ∀ q : Nat, gc_allocation_map_get (amUpdate am p setMark) q =
          if q = p then (gc_allocation_map_get am p).map setMark
          else gc_allocation_map_get am q := amUpdate_get hwf (fun _ ha => ha)
      have hget1 : gc_allocation_map_get (amUpdate am p setMark) p =
          some (setMark a) := by
        rw [hupd p, if_pos rfl, hget, Option.map_some']
      have hmono := markListWith_mono
        (fun am2 p2 hw => gc_mark_alloc_mono mem f am2 p2 hw)
        (regionCandidates mem a) _ hwf1
      obtain ⟨b, hb, hble⟩ := amLe_get_some hmono.2 hget1
      exact ⟨b, hb, hble.2.2.2.2 rfl⟩

theorem gc_mark_list_marks (mem : Nat → Nat) (fuel : Nat) :
    ∀ (cs : List Nat) (am : AllocationMap) (c : Nat) (a : Allocation), WF am →
      unmarkedCount am ≤ fuel → c ∈ cs → gc_allocation_map_get am c = some a →
      ∃ b, gc_allocation_map_get
        (markListWith (gc_mark_alloc mem fuel) am cs) c = some b ∧
        b.tag.mark = true := by
  intro cs
  induction cs with
  | nil => intro am c a _ _ hc; simp at hc
  | cons c2 cs ih =>
    intro am c a hwf hfuel hc hget
    rw [markListWith_cons]
    have hmono1 := gc_mark_alloc_mono mem fuel am c2 hwf
    by_cases hcc : c = c2
    · subst hcc
      obtain ⟨b1, hb1, hb1m⟩ := gc_mark_alloc_marks mem fuel am c a hwf hfuel hget
      have hmono2 := markListWith_mono
        (fun am2 p2 hw => gc_mark_alloc_mono mem fuel am2 p2 hw) cs _ hmono1.1
      obtain ⟨b, hb, hble⟩ := amLe_get_some hmono2.2 hb1
      exact ⟨b, hb, hble.2.2.2.2 hb1m⟩
    · obtain ⟨a2, ha2, hale⟩ := amLe_get_some hmono1.2 hget
      exact ih (gc_mark_alloc mem fuel am c2) c a2 hmono1.1
        (le_trans (amLe_unmarked_le hmono1.2) hfuel)
        (by rcases List.mem_cons.1 hc with h | h
            · exact absurd h hcc
            · exact h) ha2

/-! ## The scanned-closure property of the mark phase -/

/-- Between a pre-marking state `am₀` and a post-marking state `am'`: every
record marked in `am'` that was unmarked in `am₀` has had its whole client
region scanned, i.e. every registered candidate pointer read from the region
is itself marked in `am'`. -/
def NewlyScanned (mem : Nat → Nat) (am₀ am' : AllocationMap) : Prop :=
  ∀ q b, gc_allocation_map_get am' q = some b → b.tag.mark = true →
    (∀ a₀, gc_allocation_map_get am₀ q = some a₀ → a₀.tag.mark = false) →
    ∀ off, off < b.size → ∀ c,
      gc_allocation_map_get am' (mem (b.ptr + off)) = some c → c.tag.mark = true

theorem newlyScanned_refl (mem : Nat → Nat) (am : AllocationMap) :
    NewlyScanned mem am am := by
  intro q b hb hbm h0 off hoff c hc
  have h1 := h0 b hb
  rw [h1] at hbm
  exact absurd hbm (by simp)

theorem newlyScanned_trans {mem : Nat → Nat} {am₀ am₁ am₂ : AllocationMap}
    (h01 : AMLe am₀ am₁) (h12 : AMLe am₁ am₂)
    (s01 : NewlyScanned mem am₀ am₁) (s12 : NewlyScanned mem am₁ am₂) :
    NewlyScanned mem am₀ am₂ := by
  intro q b hb hbm h0 off hoff c hc
  obtain ⟨a₁, ha₁, hle₁⟩ := amLe_get_some_rev h12 hb
  by_cases hm1 : a₁.tag.mark = true
  · have hsz : off < a₁.size := by rw [← hle₁.2.1]; exact hoff
    rw [hle₁.1] at hc
    obtain ⟨c₁, hc₁, hlec⟩ := amLe_get_some_rev h12 hc
    exact hlec.2.2.2.2 (s01 q a₁ ha₁ hm1 h0 off hsz c₁ hc₁)
  · have h0' : ∀ a₀, gc_allocation_map_get am₁ q = some a₀ →
        a₀.tag.mark = false := by
      intro a₀ ha₀
      rw [ha₁] at ha₀
      obtain rfl := Option.some_inj.1 ha₀
      revert hm1; cases a₁.tag.mark <;> simp
    exact s12 q b hb hbm h0' off hoff c hc

theorem markListWith_markZero (mem : Nat → Nat) (cs : List Nat) :
    ∀ am : AllocationMap, markListWith (gc_mark_alloc mem 0) am cs = am := by
  induction cs with
  | nil => intro am; rfl
  | cons c cs ih => intro am; exact ih am

theorem mark_scans (mem : Nat → Nat) : ∀ fuel : Nat,
    (∀ am p, WF am → unmarkedCount am ≤ fuel →
      NewlyScanned mem am (gc_mark_alloc mem fuel am p)) ∧
    (∀ (cs : List Nat) am, WF am → unmarkedCount am ≤ fuel →
      NewlyScanned mem am (markListWith (gc_mark_alloc mem fuel) am cs)) := by
  intro fuel
  induction fuel with
  | zero =>
    constructor
    · intro am p _ _
      exact newlyScanned_refl mem am
    · intro cs am _ _
      rw [markListWith_markZero mem cs am]
      exact newlyScanned_refl mem am
  | succ fuel ih =>
    have halloc : ∀ am p, WF am → unmarkedCount am ≤ fuel + 1 →
        NewlyScanned mem am (gc_mark_alloc mem (fuel + 1) am p) := by
      intro am p hwf hfuel
      cases hget : gc_allocation_map_get am p with
      | none =>
        rw [show gc_mark_alloc mem (fuel + 1) am p = am by
          simp [gc_mark_alloc, hget]]
        exact newlyScanned_refl mem am
      | some a =>
        by_cases hm : a.tag.mark = true
        · rw [show gc_mark_alloc mem (fuel + 1) am p = am by
            simp [gc_mark_alloc, hget, hm]]
          exact newlyScanned_refl mem am
        · have hm' : a.tag.mark = false := by revert hm; cases a.tag.mark <;> simp
          have heq : gc_mark_alloc mem (fuel + 1) am p =
              markListWith (gc_mark_alloc mem fuel) (amUpdate am p setMark)
                (regionCandidates mem a) := by
            simp [gc_mark_alloc, hget, hm']
          rw [heq]
          have hwf1 : WF (amUpdate am p setMark) := amUpdate_WF hwf (fun _ ha => ha)
          have hfl : unmarkedCount (amUpdate am p setMark) ≤ fuel := by
            have := unmarked_setMark hwf hget hm'
            omega
          have hres_mono := markListWith_mono
            (fun am2 p2 hw => gc_mark_alloc_mono mem fuel am2 p2 hw)
            (regionCandidates mem a) _ hwf1
          have hscan1 := ih.2 (regionCandidates mem a) _ hwf1 hfl
          intro q b hb hbm h0 off hoff c hc
          have hupd : ∀ q2 : Nat,
              gc_allocation_map_get (amUpdate am p setMark) q2 =
              if q2 = p then (gc_allocation_map_get am p).map setMark
              else gc_allocation_map_get am q2 := amUpdate_get hwf (fun _ ha => ha)
          by_cases hqp : q = p
          · subst hqp
            have hget1 : gc_allocation_map_get (amUpdate am q setMark) q =
                some (setMark a) := by
              rw [hupd q, if_pos rfl, hget, Option.map_some']
            obtain ⟨b', hb', hble⟩ := amLe_get_some hres_mono.2 hget1
            obtain rfl : b' = b := by rw [hb] at hb'; exact (Option.some_inj.1 hb').symm
            have hap : a.ptr = q := ((get_some_char hwf).1 hget).2
            have hbptr : b'.ptr = a.ptr := hble.1
            have hbsz : b'.size = a.size := hble.2.1
            have hval : mem (b'.ptr + off) ∈ regionCandidates mem a := by
              rw [hbptr]
              exact List.mem_map.2 ⟨off,
                List.mem_range.2 (by rw [← hbsz]; exact hoff), rfl⟩
            obtain ⟨c₁, hc₁, hlec⟩ := amLe_get_some_rev hres_mono.2 hc
            obtain ⟨b2, hb2, hb2m⟩ := gc_mark_list_marks mem fuel
              (regionCandidates mem a) _ (mem (b'.ptr + off)) c₁ hwf1 hfl hval hc₁
            obtain rfl : b2 = c := by rw [hc] at hb2; exact (Option.some_inj.1 hb2).symm
            exact hb2m
          · have h0' : ∀ a₀,
                gc_allocation_map_get (amUpdate am p setMark) q = some a₀ →
                a₀.tag.mark = false := by
              intro a₀ ha₀
              rw [hupd q, if_neg hqp] at ha₀
              exact h0 a₀ ha₀
            exact hscan1 q b hb hbm h0' off hoff c hc
    refine ⟨halloc, ?_⟩
    intro cs
    induction cs with
    | nil =>
      intro am _ _
      exact newlyScanned_refl mem am
    | cons c2 cs ihcs =>
      intro am hwf hfuel
      rw [markListWith_cons]
      have h1 := gc_mark_alloc_mono mem (fuel + 1) am c2 hwf
      have hs1 := halloc am c2 hwf hfuel
      have h2mono := markListWith_mono
        (fun am2 p2 hw => gc_mark_alloc_mono mem (fuel + 1) am2 p2 hw) cs _ h1.1
      have hs2 := ihcs (gc_mark_alloc mem (fuel + 1) am c2) h1.1
        (le_trans (amLe_unmarked_le h1.2) hfuel)
      exact newlyScanned_trans h1.2 h2mono.2 hs1 hs2

/-! ## Fuel stabilization: the recursion depth bound -/

theorem mark_succ (mem : Nat → Nat) : ∀ fuel : Nat,
    (∀ am p, WF am → unmarkedCount am ≤ fuel →
      gc_mark_alloc mem (fuel + 1) am p = gc_mark_alloc mem fuel am p) ∧
    (∀ (cs : List Nat) am, WF am → unmarkedCount am ≤ fuel →
      markListWith (gc_mark_alloc mem (fuel + 1)) am cs =
        markListWith (gc_mark_alloc mem fuel) am cs) := by
  intro fuel
  induction fuel with
  | zero =>
    have halloc : ∀ am p, WF am → unmarkedCount am ≤ 0 →
        gc_mark_alloc mem 1 am p = gc_mark_alloc mem 0 am p := by
      intro am p hwf h0
      cases hget : gc_allocation_map_get am p with
      | none => simp [gc_mark_alloc, hget]
      | some a =>
        by_cases hm : a.tag.mark = true
        · simp [gc_mark_alloc, hget, hm]
        · have hm' : a.tag.mark = false := by revert hm; cases a.tag.mark <;> simp
          have := unmarked_pos hwf hget hm'
          omega
    refine ⟨halloc, ?_⟩
    intro cs
    induction cs with
    | nil => intro am _ _; rfl
    | cons c cs ihcs =>
      intro am hwf h0
      rw [markListWith_cons, markListWith_cons, halloc am c hwf h0]
      exact ihcs (gc_mark_alloc mem 0 am c) hwf h0
  | succ fuel ih =>
    have halloc : ∀ am p, WF am → unmarkedCount am ≤ fuel + 1 →
        gc_mark_alloc mem (fuel + 2) am p = gc_mark_alloc mem (fuel + 1) am p := by
      intro am p hwf hfl
      cases hget : gc_allocation_map_get am p with
      | none => simp [gc_mark_alloc, hget]
      | some a =>
        by_cases hm : a.tag.mark = true
        · simp [gc_mark_alloc, hget, hm]
        · have hm' : a.tag.mark = false := by revert hm; cases a.tag.mark <;> simp
          have heq1 : gc_mark_alloc mem (fuel + 2) am p =
              markListWith (gc_mark_alloc mem (fuel + 1)) (amUpdate am p setMark)
                (regionCandidates mem a) := by
            simp [gc_mark_alloc, hget, hm']
          have heq2 : gc_mark_alloc mem (fuel + 1) am p =
              markListWith (gc_mark_alloc mem fuel) (amUpdate am p setMark)
                (regionCandidates mem a) := by
            simp [gc_mark_alloc, hget, hm']
          rw [heq1, heq2]
          exact ih.2 (regionCandidates mem a) _
            (amUpdate_WF hwf (fun _ ha => ha))
            (by have := unmarked_setMark hwf hget hm'; omega)
    refine ⟨halloc, ?_⟩
    intro cs
    induction cs with
    | nil => intro am _ _; rfl
    | cons c cs ihcs =>
      intro am hwf hfl
      rw [markListWith_cons, markListWith_cons, halloc am c hwf hfl]
      have h1 := gc_mark_alloc_mono mem (fuel + 1) am c hwf
      exact ihcs _ h1.1 (le_trans (amLe_unmarked_le h1.2) hfl)

theorem mark_fuel_stable (mem : Nat → Nat) (am : AllocationMap) (p : Nat)
    (hwf : WF am) : ∀ fuel, unmarkedCount am ≤ fuel →
    gc_mark_alloc mem fuel am p = gc_mark_alloc mem (unmarkedCount am) am p := by
  intro fuel
  induction fuel with
  | zero =>
    intro h
    have h0 : unmarkedCount am = 0 := Nat.le_zero.1 h
    rw [h0]
  | succ fuel ih =>
    intro h
    by_cases heq : unmarkedCount am = fuel + 1
    · rw [heq]
    · have hlt : unmarkedCount am ≤ fuel := by omega
      rw [(mark_succ mem fuel).1 am p hwf hlt, ih hlt]

/-! ## Claim C9: termination of `gc_mark_alloc` -/

/-- **C9**: `gc_mark_alloc` terminates on every registry, cyclic pointer
graphs included: the result is already stable at recursion depth
`countAllocs am` (the number of registered allocations) — every fuel at
least that bound computes the same registry, which is therefore the value of
the unbounded C recursion — and a call on an absent or already-marked
candidate returns the registry unchanged. -/
theorem c9_mark_terminates (mem : Nat → Nat) (am : AllocationMap) (p : Nat)
    (fuel : Nat) (hwf : WF am) (hfuel : countAllocs am ≤ fuel) :
    gc_mark_alloc mem fuel am p = gc_mark_alloc mem (countAllocs am) am p ∧
    (gc_allocation_map_get am p = none → gc_mark_alloc mem fuel am p = am) ∧
    (∀ a, gc_allocation_map_get am p = some a → a.tag.mark = true →
      gc_mark_alloc mem fuel am p = am) := by
  have hu := unmarked_le_countAllocs am
  refine ⟨?_, ?_, ?_⟩
  · rw [mark_fuel_stable mem am p hwf fuel (by omega),
      mark_fuel_stable mem am p hwf (countAllocs am) (by omega)]
  · intro hget
    cases fuel with
    | zero => rfl
    | succ f => simp [gc_mark_alloc, hget]
  · intro a hget hm
    cases fuel with
    | zero => rfl
    | succ f => simp [gc_mark_alloc, hget, hm]

/-- The registry of `c9_witness`: two allocations whose regions point at each
other, a pointer cycle. -/
def amC9 : AllocationMap :=
  ⟨2, 2, mkRat 1 5, mkRat 4 5, mkRat 1 2, 1, 2,
    [[⟨16, 1, ⟨false, false⟩, none⟩], [⟨8, 1, ⟨false, false⟩, some 3⟩]]⟩

/-- The cyclic memory of `c9_witness`: address 8 holds 16 and address 16
holds 8. -/
def memC9 : Nat → Nat := fun a => if a = 8 then 16 else if a = 16 then 8 else 0

theorem c9_witness :
    WF amC9 ∧ countAllocs amC9 ≤ 7 ∧
    (gc_mark_alloc memC9 7 amC9 8 = gc_mark_alloc memC9 (countAllocs amC9) amC9 8 ∧
    (gc_allocation_map_get amC9 8 = none → gc_mark_alloc memC9 7 amC9 8 = amC9) ∧
    (∀ a, gc_allocation_map_get amC9 8 = some a → a.tag.mark = true →
      gc_mark_alloc memC9 7 amC9 8 = amC9)) :=
  ⟨by decide, by decide, c9_mark_terminates memC9 amC9 8 7 (by decide) (by decide)⟩

/-! ## Claims C2 and C4: the sweep against the live table -/

/-- Reachability as the mark phase sees it: from a ROOT-tagged record, from a
word read out of a scanned stack slot, or transitively through a word read
from within the client region of an already-reachable registered record. -/
inductive Reachable (mem : Nat → Nat) (tos bos : Nat) (am : AllocationMap) :
    Nat → Prop where
  | root (a : Allocation) (ha : a ∈ am.recs) (hroot : a.tag.root = true) :
      Reachable mem tos bos am a.ptr
  | stack (addr : Nat) (haddr : addr ∈ stackSlots tos bos) :
      Reachable mem tos bos am (mem addr)
  | step (p : Nat) (a : Allocation) (off : Nat)
      (hp : Reachable mem tos bos am p)
      (hget : gc_allocation_map_get am p = some a) (hoff : off < a.size) :
      Reachable mem tos bos am (mem (a.ptr + off))

theorem reachable_marked (mem : Nat → Nat) (tos bos : Nat) (am : AllocationMap)
    (hwf : WF am) (hnm : ∀ a ∈ am.recs, a.tag.mark = false) :
    ∀ q, Reachable mem tos bos am q →
      ∀ b, gc_allocation_map_get (gc_mark mem tos bos am) q = some b →
        b.tag.mark = true := by
  have hmono1 : WF (gc_mark_roots mem am) ∧ AMLe am (gc_mark_roots mem am) :=
    markListWith_mono
      (fun am2 p2 hw => gc_mark_alloc_mono mem (countAllocs am) am2 p2 hw)
      (rootPtrs am) am hwf
  have hmono2 : WF (gc_mark mem tos bos am) ∧
      AMLe (gc_mark_roots mem am) (gc_mark mem tos bos am) :=
    markListWith_mono
      (fun am2 p2 hw =>
        gc_mark_alloc_mono mem (countAllocs (gc_mark_roots mem am)) am2 p2 hw)
      ((stackSlots tos bos).map mem) (gc_mark_roots mem am) hmono1.1
  have hamle : AMLe am (gc_mark mem tos bos am) := amLe_trans hmono1.2 hmono2.2
  have hscan1 : NewlyScanned mem am (gc_mark_roots mem am) :=
    (mark_scans mem (countAllocs am)).2 (rootPtrs am) am hwf
      (unmarked_le_countAllocs am)
  have hscan2 : NewlyScanned mem (gc_mark_roots mem am) (gc_mark mem tos bos am) :=
    (mark_scans mem (countAllocs (gc_mark_roots mem am))).2
      ((stackSlots tos bos).map mem) (gc_mark_roots mem am) hmono1.1
      (unmarked_le_countAllocs (gc_mark_roots mem am))
  have hscans : NewlyScanned mem am (gc_mark mem tos bos am) :=
    newlyScanned_trans hmono1.2 hmono2.2 hscan1 hscan2
  intro q hq
  induction hq with
  | root a' ha' hroot =>
    intro b hb
    have hpres : gc_allocation_map_get am a'.ptr = some a' :=
      (get_some_char hwf).2 ⟨ha', rfl⟩
    have hmem : a'.ptr ∈ rootPtrs am :=
      List.mem_map.2 ⟨a', List.mem_filter.2 ⟨ha', by simp [hroot]⟩, rfl⟩
    obtain ⟨b1, hb1, hb1m⟩ := gc_mark_list_marks mem (countAllocs am)
      (rootPtrs am) am a'.ptr a' hwf (unmarked_le_countAllocs am) hmem hpres
    have hb1' : gc_allocation_map_get (gc_mark_roots mem am) a'.ptr = some b1 := hb1
    obtain ⟨b2, hb2, hble⟩ := amLe_get_some hmono2.2 hb1'
    rw [hb] at hb2
    obtain rfl : b = b2 := Option.some_inj.1 hb2
    exact hble.2.2.2.2 hb1m
  | stack addr haddr =>
    intro b hb
    obtain ⟨a1, ha1, _⟩ := amLe_get_some_rev hmono2.2 hb
    have hmemcs : mem addr ∈ (stackSlots tos bos).map mem :=
      List.mem_map.2 ⟨addr, haddr, rfl⟩
    obtain ⟨b2, hb2, hb2m⟩ :=
      gc_mark_list_marks mem (countAllocs (gc_mark_roots mem am))
        ((stackSlots tos bos).map mem) (gc_mark_roots mem am) (mem addr) a1
        hmono1.1 (unmarked_le_countAllocs (gc_mark_roots mem am)) hmemcs ha1
    have hb2' : gc_allocation_map_get (gc_mark mem tos bos am) (mem addr) =
        some b2 := hb2
    rw [hb] at hb2'
    obtain rfl : b = b2 := Option.some_inj.1 hb2'
    exact hb2m
  | step p' a' off hp' hget' hoff ih =>
    intro b hb
    obtain ⟨bF, hbF, hbFle⟩ := amLe_get_some hamle hget'
    have hbFm : bF.tag.mark = true := ih bF hbF
    have h0 : ∀ a₀, gc_allocation_map_get am p' = some a₀ →
        a₀.tag.mark = false := by
      intro a₀ ha₀
      rw [hget'] at ha₀
      obtain rfl : a' = a₀ := Option.some_inj.1 ha₀
      exact hnm a' ((get_some_char hwf).1 hget').1
    have hoffF : off < bF.size := by rw [hbFle.2.1]; exact hoff
    have hstep := hscans p' bF hbF hbFm h0 off hoffF
    rw [hbFle.1] at hstep
    exact hstep b hb


/-- The failing sweep input for C4 (reachable through
`gc_start_ext(bos, 7, 2, 0.3, 0.8, 0.5)` followed by two puts and a mark
phase): capacity 7, `min_capacity` 2, `downsize_factor` 3/10; a marked
record of size 2 at pointer 112 (bucket `(112 >> 3) % 7 = 0`) and an
unmarked record of size 3 with finalizer 5 at pointer 8 (bucket 1). -/
def amC4x : AllocationMap :=
  ⟨7, 2, mkRat 3 10, mkRat 4 5, mkRat 1 2, 4, 2,
    [[⟨112, 2, ⟨false, true⟩, none⟩], [⟨8, 3, ⟨false, false⟩, some 5⟩],
     [], [], [], [], []]⟩

/-- **C4** (refuted — code bug): the claimed sweep postconditions fail on a
well-formed registry, because `gc_allocation_map_remove` — called from
inside the sweep loop with no `allow_resize` guard — runs its load-factor
check and downsizes the table mid-sweep; the outer loop re-reads the shrunk
capacity, meets the record it already unmarked again in its new bucket, and
frees it.  Concretely on `amC4x`: the sweep first clears the MARK bit of the
record at 112 (bucket 0), then removes the unmarked record at 8 (bucket 1);
that removal's load check (1/7 < 3/10) resizes the table to
`next_prime(7/2) = 3` and rehomes 112 into bucket `14 % 3 = 2`; the loop
then reaches `i = 2 < 3`, finds the record at 112 with MARK now clear, and
frees it.  The finished run leaves the registry empty (the record that was
marked at sweep start is gone, against the claim's survive-with-MARK-cleared
and only-unmarked-removed conjuncts), emits a free event for 112, and
returns 5 — not 3, the sum of the sizes of the start-unmarked records the
claim demands. -/
theorem c4_sweep_midsweep_resize_frees_marked :
    WF amC4x ∧
    gc_allocation_map_get amC4x 112 = some ⟨112, 2, ⟨false, true⟩, none⟩ ∧
    gc_sweep_exec 8 amC4x =
      some ⟨⟨3, 2, mkRat 3 10, mkRat 4 5, mkRat 1 2, 2, 0, [[], [], []]⟩, 5,
        [GCEvent.finalize 5 8, GCEvent.free 8, GCEvent.free 112]⟩ ∧
    ((amC4x.recs.filter (fun r => !r.tag.mark)).map (fun r => r.size)).sum = 3 := by
  decide

/-- The failing cycle input for C2: same registry shape as `amC4x`, but
before the mark phase — all MARK bits clear, the record at 112 ROOT-tagged
(hence reachable), the record at 8 garbage. -/
def amC2x : AllocationMap :=
  ⟨7, 2, mkRat 3 10, mkRat 4 5, mkRat 1 2, 4, 2,
    [[⟨112, 1, ⟨true, false⟩, none⟩], [⟨8, 1, ⟨false, false⟩, none⟩],
     [], [], [], [], []]⟩

/-- Client memory for the C2 run: no region holds any pointer. -/
def memZero : Nat → Nat := fun _ => 0

/-- **C2** (refuted — code bug): a reachable record can be swept.  On
`amC2x` the pointer 112 is reachable (its record is ROOT-tagged) and the
mark phase duly marks it; but the sweep, after removing the garbage record
at 8, downsizes the table mid-sweep (the unconditional load check of
`gc_allocation_map_remove`: 1/7 < 3/10, `next_prime(7/2) = 3 > 2 =
min_capacity`), rehomes 112 — whose MARK bit the sweep already cleared —
into bucket `14 % 3 = 2` of the new 3-bucket table, reaches that bucket
because the loop re-reads the shrunk capacity, and frees the reachable
record: the finished run emits `free 112` and leaves the registry empty,
against the claim that a reachable record is never removed or freed. -/
theorem c2_reachable_record_swept :
    (∀ a ∈ amC2x.recs, a.tag.mark = false) ∧
    Reachable memZero 0 0 amC2x 112 ∧
    (∃ b, gc_allocation_map_get (gc_mark memZero 0 0 amC2x) 112 = some b ∧
      b.tag.mark = true) ∧
    gc_sweep_exec 8 (gc_mark memZero 0 0 amC2x) =
      some ⟨⟨3, 2, mkRat 3 10, mkRat 4 5, mkRat 1 2, 2, 0, [[], [], []]⟩, 2,
        [GCEvent.free 8, GCEvent.free 112]⟩ := by
  refine ⟨by decide, ?_, ⟨⟨112, 1, ⟨true, true⟩, none⟩, by decide, rfl⟩, by decide⟩
  exact Reachable.root ⟨112, 1, ⟨true, false⟩, none⟩ (by decide) rfl
